import Mathlib

/-!
Shallow embedding of the page-replacement simulator: three memory-management
policies (LRU in lrummu.py, Clock/second-chance in clockmmu.py, Random in
randmmu.py).  Each policy is a state machine; Python dictionaries keyed by
page number become insertion-ordered association lists (Python dicts preserve
insertion order, deletion keeps the order of the rest, and a fresh key is
appended at the end), the Clock frame list becomes a `List` of records, and
Python exceptions (ValueError from `min` on an empty dict, IndexError from
list indexing or `random.choice` on an empty list) become `none`.
`random.choice` is modelled by an injected choice index reduced modulo the
number of candidates, so theorems quantify over every possible random outcome.
The `debug` flag only drives `print` side channels and never affects state or
counters, so it is not part of the model.
-/

namespace PageSim

/-- One memory access: a page number plus the write flag passed to
`access_memory(page_number, is_write)`. -/
structure Access where
  page : Nat
  is_write : Bool
deriving Repr, DecidableEq

/-! ### Association-list operations modelling Python dict behaviour -/

/-- `p in d` / `d[p]` on a Python dict: first (unique) binding of key `p`. -/
def lookupFrame {α : Type} : List (Nat × α) → Nat → Option α
  | [], _ => none
  | (k, v) :: rest, p => if k = p then some v else lookupFrame rest p

/-- `d[p] = v` for a key `p` already present: update in place, order kept. -/
def setFrame {α : Type} : List (Nat × α) → Nat → α → List (Nat × α)
  | [], _, _ => []
  | (k, v) :: rest, p, f => if k = p then (k, f) :: rest else (k, v) :: setFrame rest p f

/-- `del d[p]`: remove the (unique) binding of key `p`, order of the rest kept. -/
def removeFrame {α : Type} : List (Nat × α) → Nat → List (Nat × α)
  | [], _ => []
  | (k, v) :: rest, p => if k = p then rest else (k, v) :: removeFrame rest p

/-! ### LRU policy (lrummu.py) -/

/-- The per-page record stored in `LruMMU.frames`:
`{"dirty": ..., "last_used": ...}`. -/
structure LFrame where
  dirty : Bool
  last_used : Nat
deriving Repr, DecidableEq

/-- The mutable state of an `LruMMU` instance. -/
structure LruState where
  number_frames : Nat
  frames : List (Nat × LFrame)
  page_faults : Nat
  disk_reads : Nat
  disk_writes : Nat
  recency_tracker : Nat
deriving Repr, DecidableEq

namespace LruMMU

/-- `LruMMU.__init__(frames)`: stores the capacity and zeroes everything;
note there is no validation of the capacity argument. -/
def init (frames : Nat) : LruState :=
  { number_frames := frames, frames := [], page_faults := 0,
    disk_reads := 0, disk_writes := 0, recency_tracker := 0 }

/-- `min(self.frames, key=lambda p: self.frames[p]["last_used"])` together
with the lookup of the chosen entry: the first binding (in insertion order)
whose `last_used` is minimal. -/
def minLastUsed : List (Nat × LFrame) → Option (Nat × LFrame)
  | [] => none
  | e :: rest =>
    match minLastUsed rest with
    | none => some e
    | some b => some (if b.2.last_used < e.2.last_used then b else e)

/-- `LruMMU.access_memory(page_number, is_write)`.  Returns `none` exactly
when Python would raise (ValueError from `min` on an empty dict, possible
only when `number_frames = 0`). -/
def access_memory (s : LruState) (page_number : Nat) (is_write : Bool) :
    Option LruState :=
  let tracker := s.recency_tracker + 1
  match lookupFrame s.frames page_number with
  | some f =>
      some { s with recency_tracker := tracker,
                    frames := setFrame s.frames page_number
                      { dirty := f.dirty || is_write, last_used := tracker } }
  | none =>
      let s1 := { s with recency_tracker := tracker,
                         page_faults := s.page_faults + 1,
                         disk_reads := s.disk_reads + 1 }
      if s1.number_frames ≤ s1.frames.length then
        match minLastUsed s1.frames with
        | none => none
        | some (rp, rf) =>
          let s2 := if rf.dirty then { s1 with disk_writes := s1.disk_writes + 1 } else s1
          let s3 := { s2 with frames := removeFrame s2.frames rp }
          some { s3 with frames :=
            s3.frames ++ [(page_number, { dirty := is_write, last_used := tracker })] }
      else
        some { s1 with frames :=
          s1.frames ++ [(page_number, { dirty := is_write, last_used := tracker })] }

/-- `LruMMU.read_memory(page_number)`. -/
def read_memory (s : LruState) (page_number : Nat) : Option LruState :=
  access_memory s page_number false

/-- `LruMMU.write_memory(page_number)`. -/
def write_memory (s : LruState) (page_number : Nat) : Option LruState :=
  access_memory s page_number true

/-- `LruMMU.get_total_disk_reads()`. -/
def get_total_disk_reads (s : LruState) : Nat := s.disk_reads

/-- `LruMMU.get_total_disk_writes()`. -/
def get_total_disk_writes (s : LruState) : Nat := s.disk_writes

/-- `LruMMU.get_total_page_faults()`. -/
def get_total_page_faults (s : LruState) : Nat := s.page_faults

end LruMMU

/-- Feed a sequence of accesses to an LRU instance, propagating failure. -/
def lruRun : List Access → LruState → Option LruState
  | [], s => some s
  | a :: t, s =>
    match LruMMU.access_memory s a.page a.is_write with
    | none => none
    | some s' => lruRun t s'

/-! ### Clock policy (clockmmu.py) -/

/-- The per-slot record in `ClockMMU.frames`:
`{"page": ..., "dirty": ..., "reference": ...}` (reference stored as 0/1). -/
structure CFrame where
  page : Nat
  dirty : Bool
  reference : Nat
deriving Repr, DecidableEq

/-- The mutable state of a `ClockMMU` instance. -/
structure ClockState where
  number_frames : Nat
  frames : List CFrame
  clock_hand : Nat
  page_faults : Nat
  disk_reads : Nat
  disk_writes : Nat
deriving Repr, DecidableEq

namespace ClockMMU

/-- `ClockMMU.__init__(frames)`: stores the capacity, empty frame list,
hand at 0; no validation of the capacity argument. -/
def init (frames : Nat) : ClockState :=
  { number_frames := frames, frames := [], clock_hand := 0,
    page_faults := 0, disk_reads := 0, disk_writes := 0 }

/-- The hit scan `for frame in self.frames: if frame["page"] == page_number`:
returns the updated frame list when the page is found (reference set to 1,
dirty set on a write), `none` when the scan falls through. -/
def hitScan (page_number : Nat) (is_write : Bool) : List CFrame → Option (List CFrame)
  | [] => none
  | f :: rest =>
    if f.page = page_number then
      some ({ f with reference := 1, dirty := f.dirty || is_write } :: rest)
    else
      (hitScan page_number is_write rest).map (f :: ·)

/-- `ClockMMU.find_removing_page`, a `while True` loop, modelled with
explicit fuel counting slot inspections: look at `frames[clock_hand]`; on
reference 0 return the slot index, the (possibly updated) frame list and the
advanced hand; on reference 1 clear it and advance the hand.  `none` models
an out-of-range index (Python IndexError) or fuel exhaustion; the call sites
below always pass enough fuel for every state the loop terminates on. -/
def findRemovingPageAux (number_frames : Nat) :
    Nat → List CFrame → Nat → Option (Nat × List CFrame × Nat)
  | 0, _, _ => none
  | fuel + 1, frames, hand =>
    match frames[hand]? with
    | none => none
    | some f =>
      if f.reference = 0 then
        some (hand, frames, (hand + 1) % number_frames)
      else
        findRemovingPageAux number_frames fuel
          (frames.set hand { f with reference := 0 }) ((hand + 1) % number_frames)

/-- `ClockMMU.access_memory(page_number, is_write)`.  The eviction search is
run with fuel `frames.length + 1`, which the lemmas below show is enough
whenever the Python loop terminates (every non-final inspection clears one
reference bit). -/
def access_memory (s : ClockState) (page_number : Nat) (is_write : Bool) :
    Option ClockState :=
  match hitScan page_number is_write s.frames with
  | some fs => some { s with frames := fs }
  | none =>
    let s1 := { s with page_faults := s.page_faults + 1,
                       disk_reads := s.disk_reads + 1 }
    if s1.frames.length < s1.number_frames then
      some { s1 with frames :=
        s1.frames ++ [{ page := page_number, dirty := is_write, reference := 1 }] }
    else
      match findRemovingPageAux s1.number_frames (s1.frames.length + 1)
          s1.frames s1.clock_hand with
      | none => none
      | some (idx, fs, hand) =>
        match fs[idx]? with
        | none => none
        | some rf =>
          let s2 := if rf.dirty then { s1 with disk_writes := s1.disk_writes + 1 } else s1
          some { s2 with
            frames := fs.set idx { page := page_number, dirty := is_write, reference := 1 },
            clock_hand := hand }

/-- `ClockMMU.read_memory(page_number)`. -/
def read_memory (s : ClockState) (page_number : Nat) : Option ClockState :=
  access_memory s page_number false

/-- `ClockMMU.write_memory(page_number)`. -/
def write_memory (s : ClockState) (page_number : Nat) : Option ClockState :=
  access_memory s page_number true

/-- `ClockMMU.get_total_disk_reads()`. -/
def get_total_disk_reads (s : ClockState) : Nat := s.disk_reads

/-- `ClockMMU.get_total_disk_writes()`. -/
def get_total_disk_writes (s : ClockState) : Nat := s.disk_writes

/-- `ClockMMU.get_total_page_faults()`. -/
def get_total_page_faults (s : ClockState) : Nat := s.page_faults

end ClockMMU

/-- Feed a sequence of accesses to a Clock instance, propagating failure. -/
def clockRun : List Access → ClockState → Option ClockState
  | [], s => some s
  | a :: t, s =>
    match ClockMMU.access_memory s a.page a.is_write with
    | none => none
    | some s' => clockRun t s'

/-! ### Random policy (randmmu.py) -/

/-- The mutable state of a `RandMMU` instance; each resident page carries
only its dirty flag (`{"dirty": ...}`). -/
structure RandState where
  number_frames : Nat
  frames : List (Nat × Bool)
  page_faults : Nat
  disk_reads : Nat
  disk_writes : Nat
deriving Repr, DecidableEq

namespace RandMMU

/-- `RandMMU.__init__(frames)`: stores the capacity and zeroes everything;
no validation of the capacity argument. -/
def init (frames : Nat) : RandState :=
  { number_frames := frames, frames := [], page_faults := 0,
    disk_reads := 0, disk_writes := 0 }

/-- `RandMMU.access_memory(page_number, is_write)` with the random source
made explicit: `random.choice(list(self.frames.keys()))` becomes indexing the
key list at `choice % length`, which ranges over every resident page as
`choice` does, and is `none` (Python IndexError) exactly on an empty list. -/
def access_memory (s : RandState) (page_number : Nat) (is_write : Bool)
    (choice : Nat) : Option RandState :=
  match lookupFrame s.frames page_number with
  | some d =>
      some { s with frames := setFrame s.frames page_number (d || is_write) }
  | none =>
      let s1 := { s with page_faults := s.page_faults + 1,
                         disk_reads := s.disk_reads + 1 }
      if s1.number_frames ≤ s1.frames.length then
        match s1.frames[choice % s1.frames.length]? with
        | none => none
        | some (rp, rd) =>
          let s2 := if rd then { s1 with disk_writes := s1.disk_writes + 1 } else s1
          let s3 := { s2 with frames := removeFrame s2.frames rp }
          some { s3 with frames := s3.frames ++ [(page_number, is_write)] }
      else
        some { s1 with frames := s1.frames ++ [(page_number, is_write)] }

/-- `RandMMU.read_memory(page_number)` under a given random outcome. -/
def read_memory (s : RandState) (page_number : Nat) (choice : Nat) : Option RandState :=
  access_memory s page_number false choice

/-- `RandMMU.write_memory(page_number)` under a given random outcome. -/
def write_memory (s : RandState) (page_number : Nat) (choice : Nat) : Option RandState :=
  access_memory s page_number true choice

/-- `RandMMU.get_total_disk_reads()`. -/
def get_total_disk_reads (s : RandState) : Nat := s.disk_reads

/-- `RandMMU.get_total_disk_writes()`. -/
def get_total_disk_writes (s : RandState) : Nat := s.disk_writes

/-- `RandMMU.get_total_page_faults()`. -/
def get_total_page_faults (s : RandState) : Nat := s.page_faults

end RandMMU

/-- Feed a sequence of accesses (each with its random outcome) to a Random
instance, propagating failure. -/
def randRun : List (Access × Nat) → RandState → Option RandState
  | [], s => some s
  | (a, c) :: t, s =>
    match RandMMU.access_memory s a.page a.is_write c with
    | none => none
    | some s' => randRun t s'

end PageSim

namespace PageSim

/-! ### Association-list lemmas -/

theorem lookupFrame_eq_none {α : Type} (fs : List (Nat × α)) (p : Nat) :
    lookupFrame fs p = none ↔ p ∉ fs.map Prod.fst := by
  induction fs with
  | nil => simp [lookupFrame]
  | cons e rest ih =>
    obtain ⟨k, v⟩ := e
    by_cases hk : k = p
    · subst hk; simp [lookupFrame]
    · simp [lookupFrame, hk, ih, Ne.symm hk]

theorem lookupFrame_mem {α : Type} {fs : List (Nat × α)} {p : Nat} {v : α}
    (h : lookupFrame fs p = some v) : (p, v) ∈ fs := by
  induction fs with
  | nil => simp [lookupFrame] at h
  | cons e rest ih =>
    obtain ⟨k, w⟩ := e
    by_cases hk : k = p
    · subst hk
      simp [lookupFrame] at h
      subst h
      exact List.mem_cons_self _ _
    · simp [lookupFrame, hk] at h
      exact List.mem_cons_of_mem _ (ih h)

theorem lookupFrame_decomp {α : Type} {fs : List (Nat × α)} {p : Nat} {v : α}
    (h : lookupFrame fs p = some v) :
    ∃ l1 l2, fs = l1 ++ (p, v) :: l2 ∧ p ∉ l1.map Prod.fst := by
  induction fs with
  | nil => simp [lookupFrame] at h
  | cons e rest ih =>
    obtain ⟨k, w⟩ := e
    by_cases hk : k = p
    · subst hk
      simp [lookupFrame] at h
      exact ⟨[], rest, by simp [h], by simp⟩
    · simp [lookupFrame, hk] at h
      obtain ⟨l1, l2, hfs, hnot⟩ := ih h
      exact ⟨(k, w) :: l1, l2, by simp [hfs], by simp [hnot, Ne.symm hk]⟩

theorem setFrame_append {α : Type} (l1 l2 : List (Nat × α)) (p : Nat) (v f : α)
    (h : p ∉ l1.map Prod.fst) :
    setFrame (l1 ++ (p, v) :: l2) p f = l1 ++ (p, f) :: l2 := by
  induction l1 with
  | nil => simp [setFrame]
  | cons e rest ih =>
    obtain ⟨k, w⟩ := e
    simp only [List.map_cons, List.mem_cons, not_or] at h
    simp only [List.cons_append, setFrame, if_neg (Ne.symm h.1), List.append_eq]
    rw [ih h.2]

theorem removeFrame_append {α : Type} (l1 l2 : List (Nat × α)) (p : Nat) (v : α)
    (h : p ∉ l1.map Prod.fst) :
    removeFrame (l1 ++ (p, v) :: l2) p = l1 ++ l2 := by
  induction l1 with
  | nil => simp [removeFrame]
  | cons e rest ih =>
    obtain ⟨k, w⟩ := e
    simp only [List.map_cons, List.mem_cons, not_or] at h
    simp only [List.cons_append, removeFrame, if_neg (Ne.symm h.1), List.append_eq]
    rw [ih h.2]

theorem lookupFrame_append {α : Type} (l1 l2 : List (Nat × α)) (p : Nat) :
    lookupFrame (l1 ++ l2) p =
      match lookupFrame l1 p with
      | some v => some v
      | none => lookupFrame l2 p := by
  induction l1 with
  | nil => simp [lookupFrame]
  | cons e rest ih =>
    obtain ⟨k, w⟩ := e
    by_cases hk : k = p
    · subst hk; simp [lookupFrame]
    · simp [lookupFrame, hk, ih]

theorem lookupFrame_eq_of_mem {α : Type} {fs : List (Nat × α)}
    (hnd : (fs.map Prod.fst).Nodup) {p : Nat} {v : α}
    (h : (p, v) ∈ fs) : lookupFrame fs p = some v := by
  induction fs with
  | nil => simp at h
  | cons e rest ih =>
    obtain ⟨k, w⟩ := e
    simp only [List.map_cons, List.nodup_cons] at hnd
    rcases List.mem_cons.mp h with he | hm
    · injection he with h1 h2
      subst h1; subst h2
      simp [lookupFrame]
    · by_cases hk : k = p
      · subst hk
        exact absurd (List.mem_map_of_mem Prod.fst hm) hnd.1
      · simp only [lookupFrame, if_neg hk]
        exact ih hnd.2 hm

theorem removeFrame_sublist {α : Type} (fs : List (Nat × α)) (p : Nat) :
    List.Sublist (removeFrame fs p) fs := by
  induction fs with
  | nil => simp [removeFrame]
  | cons e rest ih =>
    obtain ⟨k, w⟩ := e
    by_cases hk : k = p
    · simp only [removeFrame, if_pos hk]
      exact List.sublist_cons_self _ _
    · simp only [removeFrame, if_neg hk]
      exact ih.cons₂ _

theorem map_fst_setFrame {α : Type} (fs : List (Nat × α)) (p : Nat) (f : α) :
    (setFrame fs p f).map Prod.fst = fs.map Prod.fst := by
  induction fs with
  | nil => simp [setFrame]
  | cons e rest ih =>
    obtain ⟨k, w⟩ := e
    by_cases hk : k = p
    · simp [setFrame, hk]
    · simp [setFrame, hk, ih]

theorem mem_setFrame {α : Type} {fs : List (Nat × α)} {p : Nat} {f : α} {e : Nat × α}
    (h : e ∈ setFrame fs p f) : e ∈ fs ∨ e = (p, f) := by
  induction fs with
  | nil => simp [setFrame] at h
  | cons d rest ih =>
    obtain ⟨k, w⟩ := d
    by_cases hk : k = p
    · subst hk
      simp only [setFrame, if_pos rfl] at h
      rcases List.mem_cons.mp h with he | hm
      · exact Or.inr he
      · exact Or.inl (List.mem_cons_of_mem _ hm)
    · simp only [setFrame, if_neg hk] at h
      rcases List.mem_cons.mp h with he | hm
      · exact Or.inl (he ▸ List.mem_cons_self _ _)
      · rcases ih hm with h1 | h2
        · exact Or.inl (List.mem_cons_of_mem _ h1)
        · exact Or.inr h2

end PageSim

namespace PageSim

namespace LruMMU

/-! ### minLastUsed lemmas -/

theorem minLastUsed_eq_none (fs : List (Nat × LFrame)) :
    minLastUsed fs = none ↔ fs = [] := by
  cases fs with
  | nil => simp [minLastUsed]
  | cons e rest =>
    simp only [minLastUsed]
    cases minLastUsed rest <;> simp

theorem minLastUsed_mem {fs : List (Nat × LFrame)} {x : Nat × LFrame}
    (h : minLastUsed fs = some x) : x ∈ fs := by
  induction fs with
  | nil => simp [minLastUsed] at h
  | cons d rest ih =>
    rw [minLastUsed] at h
    cases hr : minLastUsed rest with
    | none =>
      rw [hr] at h
      injection h with h
      subst h
      exact List.mem_cons_self _ _
    | some b =>
      rw [hr] at h
      injection h with h
      by_cases hb : b.2.last_used < d.2.last_used
      · rw [if_pos hb] at h
        subst h
        exact List.mem_cons_of_mem _ (ih hr)
      · rw [if_neg hb] at h
        subst h
        exact List.mem_cons_self _ _

theorem minLastUsed_le {fs : List (Nat × LFrame)} :
    ∀ {x : Nat × LFrame}, minLastUsed fs = some x →
      ∀ e ∈ fs, x.2.last_used ≤ e.2.last_used := by
  induction fs with
  | nil => intro x h; simp [minLastUsed] at h
  | cons d rest ih =>
    intro x h
    rw [minLastUsed] at h
    cases hr : minLastUsed rest with
    | none =>
      rw [hr] at h
      injection h with h
      subst h
      have hnil : rest = [] := (minLastUsed_eq_none rest).mp hr
      subst hnil
      intro e he
      rcases List.mem_cons.mp he with rfl | hm
      · exact le_refl _
      · simp at hm
    | some b =>
      rw [hr] at h
      injection h with h
      have hble := ih hr
      intro e he
      rcases List.mem_cons.mp he with rfl | hm
      · by_cases hb : b.2.last_used < e.2.last_used
        · rw [if_pos hb] at h; subst h; exact le_of_lt hb
        · rw [if_neg hb] at h; subst h; exact le_refl _
      · by_cases hb : b.2.last_used < d.2.last_used
        · rw [if_pos hb] at h; subst h; exact hble e hm
        · rw [if_neg hb] at h; subst h
          exact le_trans (not_lt.mp hb) (hble e hm)

theorem minLastUsed_lt_of_nodup {fs : List (Nat × LFrame)} {x : Nat × LFrame}
    (h : minLastUsed fs = some x)
    (hnd : (fs.map (fun e => e.2.last_used)).Nodup) :
    ∀ e ∈ fs, e ≠ x → x.2.last_used < e.2.last_used := by
  intro e he hne
  have hle := minLastUsed_le h e he
  rcases lt_or_eq_of_le hle with hlt | heq
  · exact hlt
  · exact absurd (List.inj_on_of_nodup_map hnd he (minLastUsed_mem h) heq.symm) hne

/-! ### access_memory branch equations -/

theorem access_hit {s : LruState} {p : Nat} {w : Bool} {f : LFrame}
    (h : lookupFrame s.frames p = some f) :
    access_memory s p w = some
      { s with recency_tracker := s.recency_tracker + 1,
               frames := setFrame s.frames p ⟨f.dirty || w, s.recency_tracker + 1⟩ } := by
  unfold access_memory
  rw [h]

theorem access_fault_free {s : LruState} {p : Nat} {w : Bool}
    (h : lookupFrame s.frames p = none)
    (hroom : s.frames.length < s.number_frames) :
    access_memory s p w = some
      { s with recency_tracker := s.recency_tracker + 1,
               page_faults := s.page_faults + 1,
               disk_reads := s.disk_reads + 1,
               frames := s.frames ++ [(p, ⟨w, s.recency_tracker + 1⟩)] } := by
  unfold access_memory
  rw [h]
  simp only []
  rw [if_neg (by omega : ¬ s.number_frames ≤ s.frames.length)]

theorem access_fault_evict {s : LruState} {p : Nat} {w : Bool} {rp : Nat} {rf : LFrame}
    (h : lookupFrame s.frames p = none)
    (hfull : s.number_frames ≤ s.frames.length)
    (hm : minLastUsed s.frames = some (rp, rf)) :
    access_memory s p w = some
      { s with recency_tracker := s.recency_tracker + 1,
               page_faults := s.page_faults + 1,
               disk_reads := s.disk_reads + 1,
               disk_writes := s.disk_writes + (if rf.dirty then 1 else 0),
               frames := removeFrame s.frames rp ++ [(p, ⟨w, s.recency_tracker + 1⟩)] } := by
  unfold access_memory
  rw [h]
  simp only []
  rw [if_pos hfull, hm]
  cases hd : rf.dirty <;> simp [hd]

theorem access_fault_err {s : LruState} {p : Nat} {w : Bool}
    (h : lookupFrame s.frames p = none)
    (hfull : s.number_frames ≤ s.frames.length)
    (hnil : s.frames = []) :
    access_memory s p w = none := by
  unfold access_memory
  rw [h]
  simp only []
  rw [if_pos hfull, (minLastUsed_eq_none _).mpr hnil]

theorem access_memory_total (s : LruState) (p : Nat) (w : Bool)
    (h1 : 1 ≤ s.number_frames) :
    ∃ s', access_memory s p w = some s' := by
  cases hl : lookupFrame s.frames p with
  | some f => exact ⟨_, access_hit hl⟩
  | none =>
    by_cases hfull : s.number_frames ≤ s.frames.length
    · have hne : s.frames ≠ [] := by
        intro he
        rw [he] at hfull
        simp at hfull
        omega
      cases hm : minLastUsed s.frames with
      | none => exact absurd ((minLastUsed_eq_none _).mp hm) hne
      | some x =>
        obtain ⟨rp, rf⟩ := x
        exact ⟨_, access_fault_evict hl hfull hm⟩
    · exact ⟨_, access_fault_free hl (by omega)⟩

end LruMMU

end PageSim

namespace PageSim

/-! ### More association-list lemmas -/

theorem lookupFrame_setFrame_self {α : Type} {fs : List (Nat × α)} {p : Nat} {v : α}
    (h : lookupFrame fs p = some v) (f : α) :
    lookupFrame (setFrame fs p f) p = some f := by
  induction fs with
  | nil => simp [lookupFrame] at h
  | cons e rest ih =>
    obtain ⟨k, w⟩ := e
    by_cases hk : k = p
    · subst hk; simp [setFrame, lookupFrame]
    · simp only [lookupFrame, if_neg hk] at h
      simp only [setFrame, if_neg hk, lookupFrame]
      exact ih h

theorem lookupFrame_append_single {α : Type} {fs : List (Nat × α)} {p : Nat} (f : α)
    (h : lookupFrame fs p = none) :
    lookupFrame (fs ++ [(p, f)]) p = some f := by
  rw [lookupFrame_append, h]
  simp [lookupFrame]

theorem lookupFrame_removeFrame_none {α : Type} {fs : List (Nat × α)} {p q : Nat}
    (h : lookupFrame fs p = none) : lookupFrame (removeFrame fs q) p = none := by
  rw [lookupFrame_eq_none] at h ⊢
  intro hmem
  exact h (((removeFrame_sublist fs q).map Prod.fst).subset hmem)

theorem lookupFrame_removeFrame_self {α : Type} {fs : List (Nat × α)}
    (hnd : (fs.map Prod.fst).Nodup) {p : Nat} {v : α}
    (h : lookupFrame fs p = some v) :
    lookupFrame (removeFrame fs p) p = none := by
  obtain ⟨l1, l2, hfs, hl1⟩ := lookupFrame_decomp h
  subst hfs
  rw [removeFrame_append _ _ _ _ hl1]
  rw [List.map_append, List.map_cons] at hnd
  have h2 := List.nodup_middle.mp hnd
  have hp : p ∉ l1.map Prod.fst ++ l2.map Prod.fst := (List.nodup_cons.mp h2).1
  rw [lookupFrame_eq_none, List.map_append]
  exact hp

theorem length_setFrame {α : Type} (fs : List (Nat × α)) (p : Nat) (f : α) :
    (setFrame fs p f).length = fs.length := by
  have h := congrArg List.length (map_fst_setFrame fs p f)
  simpa using h

theorem length_removeFrame {α : Type} {fs : List (Nat × α)} {p : Nat} {v : α}
    (h : lookupFrame fs p = some v) :
    (removeFrame fs p).length + 1 = fs.length := by
  obtain ⟨l1, l2, hfs, hl1⟩ := lookupFrame_decomp h
  subst hfs
  rw [removeFrame_append _ _ _ _ hl1]
  simp
  omega

theorem nodup_append_singleton {β : Type} {l : List β} {a : β}
    (hnd : l.Nodup) (ha : a ∉ l) : (l ++ [a]).Nodup := by
  rw [List.nodup_append]
  refine ⟨hnd, List.nodup_singleton a, ?_⟩
  intro x hx hxa
  rw [List.mem_singleton] at hxa
  subst hxa
  exact ha hx

namespace LruMMU

/-! ### LRU well-formedness and step facts -/

/-- Well-formedness of every reachable LRU state: the resident set respects
the capacity, pages are unique, recency stamps are unique and bounded by the
logical clock. -/
def LruWF (s : LruState) : Prop :=
  s.frames.length ≤ s.number_frames ∧
  (s.frames.map Prod.fst).Nodup ∧
  (s.frames.map (fun e => e.2.last_used)).Nodup ∧
  ∀ e ∈ s.frames, e.2.last_used ≤ s.recency_tracker

theorem init_WF (c : Nat) : LruWF (init c) :=
  ⟨by simp [init], by simp [init], by simp [init], by simp [init]⟩

theorem access_WF {s : LruState} {p : Nat} {w : Bool} {s' : LruState}
    (hacc : access_memory s p w = some s') (hwf : LruWF s) : LruWF s' := by
  obtain ⟨hlen, hkeys, hstamps, hbound⟩ := hwf
  cases hl : lookupFrame s.frames p with
  | some f =>
    rw [access_hit hl] at hacc
    injection hacc with hacc
    subst hacc
    obtain ⟨l1, l2, hfs, hl1⟩ := lookupFrame_decomp hl
    have hb1 : ∀ e ∈ l1, e.2.last_used ≤ s.recency_tracker := by
      intro e he
      exact hbound e (by rw [hfs]; exact List.mem_append_left _ he)
    have hb2 : ∀ e ∈ l2, e.2.last_used ≤ s.recency_tracker := by
      intro e he
      exact hbound e
        (by rw [hfs]; exact List.mem_append_right _ (List.mem_cons_of_mem _ he))
    refine ⟨?_, ?_, ?_, ?_⟩
    · simpa [length_setFrame] using hlen
    · simpa [map_fst_setFrame] using hkeys
    · show ((setFrame s.frames p _).map (fun e => e.2.last_used)).Nodup
      rw [hfs, setFrame_append _ _ _ _ _ hl1]
      rw [hfs] at hstamps
      rw [List.map_append, List.map_cons] at hstamps ⊢
      rw [List.nodup_middle] at hstamps ⊢
      rw [List.nodup_cons] at hstamps ⊢
      refine ⟨?_, hstamps.2⟩
      intro hmem
      rw [List.mem_append] at hmem
      rcases hmem with hm | hm
      · obtain ⟨e, he, hee⟩ := List.mem_map.mp hm
        have hb := hb1 e he
        simp at hee
        omega
      · obtain ⟨e, he, hee⟩ := List.mem_map.mp hm
        have hb := hb2 e he
        simp at hee
        omega
    · show ∀ e ∈ setFrame s.frames p ⟨f.dirty || w, s.recency_tracker + 1⟩,
        e.2.last_used ≤ s.recency_tracker + 1
      intro e he
      rcases mem_setFrame he with h1 | h1
      · exact le_trans (hbound e h1) (Nat.le_succ _)
      · subst h1; simp
  | none =>
    by_cases hfull : s.number_frames ≤ s.frames.length
    · cases hm : minLastUsed s.frames with
      | none =>
        rw [access_fault_err hl hfull ((minLastUsed_eq_none _).mp hm)] at hacc
        simp at hacc
      | some x =>
        obtain ⟨rp, rf⟩ := x
        rw [access_fault_evict hl hfull hm] at hacc
        injection hacc with hacc
        subst hacc
        have hrp : lookupFrame s.frames rp = some rf :=
          lookupFrame_eq_of_mem hkeys (minLastUsed_mem hm)
        have hsub : List.Sublist (removeFrame s.frames rp) s.frames :=
          removeFrame_sublist s.frames rp
        refine ⟨?_, ?_, ?_, ?_⟩
        · show (removeFrame s.frames rp ++
            [(p, (⟨w, s.recency_tracker + 1⟩ : LFrame))]).length ≤ s.number_frames
          rw [List.length_append]
          have := length_removeFrame hrp
          show (removeFrame s.frames rp).length + 1 ≤ s.number_frames
          omega
        · show ((removeFrame s.frames rp ++ _).map Prod.fst).Nodup
          rw [List.map_append]
          refine nodup_append_singleton (hkeys.sublist (hsub.map _)) ?_
          intro hmem
          exact ((lookupFrame_eq_none _ _).mp
            (lookupFrame_removeFrame_none hl)) (by simpa using hmem)
        · show ((removeFrame s.frames rp ++ _).map (fun e => e.2.last_used)).Nodup
          rw [List.map_append]
          refine nodup_append_singleton (hstamps.sublist (hsub.map _)) ?_
          intro hmem
          simp only [List.map_singleton, List.mem_map] at hmem
          obtain ⟨e, he, hee⟩ := hmem
          have := hbound e (hsub.subset he)
          omega
        · show ∀ e ∈ removeFrame s.frames rp ++ [(p, ⟨w, s.recency_tracker + 1⟩)],
            e.2.last_used ≤ s.recency_tracker + 1
          intro e he
          rcases List.mem_append.mp he with h1 | h1
          · exact le_trans (hbound e (hsub.subset h1)) (Nat.le_succ _)
          · rw [List.mem_singleton] at h1
            subst h1
            simp
    · rw [access_fault_free hl (by omega)] at hacc
      injection hacc with hacc
      subst hacc
      refine ⟨?_, ?_, ?_, ?_⟩
      · show (s.frames ++
          [(p, (⟨w, s.recency_tracker + 1⟩ : LFrame))]).length ≤ s.number_frames
        rw [List.length_append]
        show s.frames.length + 1 ≤ s.number_frames
        omega
      · show ((s.frames ++ _).map Prod.fst).Nodup
        rw [List.map_append]
        refine nodup_append_singleton hkeys ?_
        intro hmem
        exact ((lookupFrame_eq_none _ _).mp hl) (by simpa using hmem)
      · show ((s.frames ++ _).map (fun e => e.2.last_used)).Nodup
        rw [List.map_append]
        refine nodup_append_singleton hstamps ?_
        intro hmem
        simp only [List.map_singleton, List.mem_map] at hmem
        obtain ⟨e, he, hee⟩ := hmem
        have := hbound e he
        omega
      · show ∀ e ∈ s.frames ++ [(p, ⟨w, s.recency_tracker + 1⟩)],
          e.2.last_used ≤ s.recency_tracker + 1
        intro e he
        rcases List.mem_append.mp he with h1 | h1
        · exact le_trans (hbound e h1) (Nat.le_succ _)
        · rw [List.mem_singleton] at h1
          subst h1
          simp

end LruMMU

end PageSim

namespace PageSim

namespace LruMMU

/-- The exact condition under which `lrummu.py` increments `disk_writes` on
an access to page `p`: a fault while the resident set is at capacity whose
least-recently-used candidate is dirty. -/
def lruWriteBack (s : LruState) (p : Nat) : Bool :=
  (lookupFrame s.frames p).isNone &&
  decide (s.number_frames ≤ s.frames.length) &&
  ((minLastUsed s.frames).map (fun e => e.2.dirty)).getD false

theorem access_counters {s : LruState} {p : Nat} {w : Bool} {s' : LruState}
    (hacc : access_memory s p w = some s') :
    s'.number_frames = s.number_frames ∧
    s'.recency_tracker = s.recency_tracker + 1 ∧
    s'.page_faults = s.page_faults + (if (lookupFrame s.frames p).isSome then 0 else 1) ∧
    s'.disk_reads = s.disk_reads + (if (lookupFrame s.frames p).isSome then 0 else 1) ∧
    s'.disk_writes = s.disk_writes + (if lruWriteBack s p then 1 else 0) := by
  cases hl : lookupFrame s.frames p with
  | some f =>
    rw [access_hit hl] at hacc
    injection hacc with hacc
    subst hacc
    simp [lruWriteBack, hl]
  | none =>
    by_cases hfull : s.number_frames ≤ s.frames.length
    · cases hm : minLastUsed s.frames with
      | none =>
        rw [access_fault_err hl hfull ((minLastUsed_eq_none _).mp hm)] at hacc
        simp at hacc
      | some x =>
        obtain ⟨rp, rf⟩ := x
        rw [access_fault_evict hl hfull hm] at hacc
        injection hacc with hacc
        subst hacc
        simp [lruWriteBack, hl, hfull, hm]
    · rw [access_fault_free hl (by omega)] at hacc
      injection hacc with hacc
      subst hacc
      simp [lruWriteBack, hl, hfull]

theorem access_resident_after {s : LruState} {p : Nat} {w : Bool} {s' : LruState}
    (hacc : access_memory s p w = some s') :
    ∃ f, lookupFrame s'.frames p = some f := by
  cases hl : lookupFrame s.frames p with
  | some f =>
    rw [access_hit hl] at hacc
    injection hacc with hacc
    subst hacc
    exact ⟨_, lookupFrame_setFrame_self hl _⟩
  | none =>
    by_cases hfull : s.number_frames ≤ s.frames.length
    · cases hm : minLastUsed s.frames with
      | none =>
        rw [access_fault_err hl hfull ((minLastUsed_eq_none _).mp hm)] at hacc
        simp at hacc
      | some x =>
        obtain ⟨rp, rf⟩ := x
        rw [access_fault_evict hl hfull hm] at hacc
        injection hacc with hacc
        subst hacc
        exact ⟨_, lookupFrame_append_single _ (lookupFrame_removeFrame_none hl)⟩
    · rw [access_fault_free hl (by omega)] at hacc
      injection hacc with hacc
      subst hacc
      exact ⟨_, lookupFrame_append_single _ hl⟩

theorem access_clean {s : LruState} {p : Nat} {s' : LruState}
    (hacc : access_memory s p false = some s')
    (hclean : ∀ e ∈ s.frames, e.2.dirty = false) :
    (∀ e ∈ s'.frames, e.2.dirty = false) ∧ s'.disk_writes = s.disk_writes := by
  cases hl : lookupFrame s.frames p with
  | some f =>
    rw [access_hit hl] at hacc
    injection hacc with hacc
    subst hacc
    refine ⟨?_, rfl⟩
    show ∀ e ∈ setFrame s.frames p ⟨f.dirty || false, s.recency_tracker + 1⟩,
      e.2.dirty = false
    intro e he
    rcases mem_setFrame he with h1 | h1
    · exact hclean e h1
    · subst h1
      simp
      exact hclean _ (lookupFrame_mem hl)
  | none =>
    by_cases hfull : s.number_frames ≤ s.frames.length
    · cases hm : minLastUsed s.frames with
      | none =>
        rw [access_fault_err hl hfull ((minLastUsed_eq_none _).mp hm)] at hacc
        simp at hacc
      | some x =>
        obtain ⟨rp, rf⟩ := x
        rw [access_fault_evict hl hfull hm] at hacc
        injection hacc with hacc
        subst hacc
        have hrfd : rf.dirty = false := hclean _ (minLastUsed_mem hm)
        constructor
        · show ∀ e ∈ removeFrame s.frames rp ++ [(p, ⟨false, s.recency_tracker + 1⟩)],
            e.2.dirty = false
          intro e he
          rcases List.mem_append.mp he with h1 | h1
          · exact hclean e ((removeFrame_sublist s.frames rp).subset h1)
          · rw [List.mem_singleton] at h1
            subst h1
            rfl
        · show s.disk_writes + (if rf.dirty then 1 else 0) = s.disk_writes
          rw [hrfd]
          rfl
    · rw [access_fault_free hl (by omega)] at hacc
      injection hacc with hacc
      subst hacc
      refine ⟨?_, rfl⟩
      show ∀ e ∈ s.frames ++ [(p, ⟨false, s.recency_tracker + 1⟩)], e.2.dirty = false
      intro e he
      rcases List.mem_append.mp he with h1 | h1
      · exact hclean e h1
      · rw [List.mem_singleton] at h1
        subst h1
        rfl

end LruMMU

/-! ### LRU run-level lemmas -/

/-- The number of accesses in `t` whose page is not resident at the moment
that access is processed, starting from state `s` (the quantity the spec says
`page_faults` computes). -/
def lruCountFaults : List Access → LruState → Nat
  | [], _ => 0
  | a :: t, s =>
    (if (lookupFrame s.frames a.page).isSome then 0 else 1) +
      match LruMMU.access_memory s a.page a.is_write with
      | none => 0
      | some s' => lruCountFaults t s'

theorem lruRun_cons (a : Access) (t : List Access) (s : LruState) :
    lruRun (a :: t) s =
      match LruMMU.access_memory s a.page a.is_write with
      | none => none
      | some s' => lruRun t s' := rfl

theorem lruRun_total : ∀ (t : List Access) (s : LruState), 1 ≤ s.number_frames →
    ∃ s', lruRun t s = some s' := by
  intro t
  induction t with
  | nil => exact fun s _ => ⟨s, rfl⟩
  | cons a t ih =>
    intro s h
    obtain ⟨s1, h1⟩ := LruMMU.access_memory_total s a.page a.is_write h
    have hnf : s1.number_frames = s.number_frames := (LruMMU.access_counters h1).1
    obtain ⟨s2, h2⟩ := ih s1 (by omega)
    refine ⟨s2, ?_⟩
    rw [lruRun_cons, h1]
    exact h2

theorem lruRun_faults : ∀ {t : List Access} {s s' : LruState}, lruRun t s = some s' →
    s'.page_faults = s.page_faults + lruCountFaults t s ∧
    s'.disk_reads = s.disk_reads + lruCountFaults t s := by
  intro t
  induction t with
  | nil =>
    intro s s' h
    injection h with h
    subst h
    simp [lruCountFaults]
  | cons a t ih =>
    intro s s' h
    rw [lruRun_cons] at h
    cases ha : LruMMU.access_memory s a.page a.is_write with
    | none => rw [ha] at h; simp at h
    | some s1 =>
      rw [ha] at h
      obtain ⟨hf, hr⟩ := ih h
      obtain ⟨_, _, hpf, hdr, _⟩ := LruMMU.access_counters ha
      have hc : lruCountFaults (a :: t) s =
          (if (lookupFrame s.frames a.page).isSome then 0 else 1) +
            lruCountFaults t s1 := by
        rw [lruCountFaults, ha]
      constructor
      · rw [hf, hpf, hc]; omega
      · rw [hr, hdr, hc]; omega

theorem lruRun_WF : ∀ {t : List Access} {s s' : LruState}, lruRun t s = some s' →
    LruMMU.LruWF s → LruMMU.LruWF s' := by
  intro t
  induction t with
  | nil =>
    intro s s' h hwf
    injection h with h
    subst h
    exact hwf
  | cons a t ih =>
    intro s s' h hwf
    rw [lruRun_cons] at h
    cases ha : LruMMU.access_memory s a.page a.is_write with
    | none => rw [ha] at h; simp at h
    | some s1 =>
      rw [ha] at h
      exact ih h (LruMMU.access_WF ha hwf)

/-- A trace with no write accesses. -/
def readsOnly (t : List Access) : Prop := ∀ a ∈ t, a.is_write = false

theorem lruRun_clean : ∀ {t : List Access} {s s' : LruState}, lruRun t s = some s' →
    readsOnly t → (∀ e ∈ s.frames, e.2.dirty = false) →
    (∀ e ∈ s'.frames, e.2.dirty = false) ∧ s'.disk_writes = s.disk_writes := by
  intro t
  induction t with
  | nil =>
    intro s s' h _ hclean
    injection h with h
    subst h
    exact ⟨hclean, rfl⟩
  | cons a t ih =>
    intro s s' h hro hclean
    rw [lruRun_cons] at h
    cases ha : LruMMU.access_memory s a.page a.is_write with
    | none => rw [ha] at h; simp at h
    | some s1 =>
      rw [ha] at h
      have hw : a.is_write = false := hro a (List.mem_cons_self _ _)
      rw [hw] at ha
      obtain ⟨hc1, hw1⟩ := LruMMU.access_clean ha hclean
      obtain ⟨hc2, hw2⟩ := ih h (fun b hb => hro b (List.mem_cons_of_mem _ hb)) hc1
      exact ⟨hc2, by omega⟩

end PageSim

namespace PageSim

namespace ClockMMU

/-! ### hitScan lemmas -/

theorem hitScan_decomp {p : Nat} {w : Bool} : ∀ {fs fs' : List CFrame},
    hitScan p w fs = some fs' →
    ∃ l1 f l2, fs = l1 ++ f :: l2 ∧ f.page = p ∧ (∀ g ∈ l1, g.page ≠ p) ∧
      fs' = l1 ++ { f with reference := 1, dirty := f.dirty || w } :: l2 := by
  intro fs
  induction fs with
  | nil => intro fs' h; simp [hitScan] at h
  | cons f rest ih =>
    intro fs' h
    by_cases hp : f.page = p
    · rw [hitScan, if_pos hp] at h
      injection h with h
      exact ⟨[], f, rest, by simp, hp, by simp, h.symm⟩
    · rw [hitScan, if_neg hp] at h
      cases hr : hitScan p w rest with
      | none => rw [hr] at h; simp at h
      | some fs'' =>
        rw [hr] at h
        simp only [Option.map_some'] at h
        injection h with h
        obtain ⟨l1, g, l2, hfs, hg, hl1, hfs'⟩ := ih hr
        refine ⟨f :: l1, g, l2, by simp [hfs], hg, ?_, by simp [hfs', ← h]⟩
        intro x hx
        rcases List.mem_cons.mp hx with rfl | hx1
        · exact hp
        · exact hl1 x hx1

theorem hitScan_eq_none {p : Nat} {w : Bool} : ∀ {fs : List CFrame},
    hitScan p w fs = none ↔ ∀ f ∈ fs, f.page ≠ p := by
  intro fs
  induction fs with
  | nil => simp [hitScan]
  | cons f rest ih =>
    by_cases hp : f.page = p
    · rw [hitScan, if_pos hp]
      simp [hp]
    · rw [hitScan, if_neg hp]
      cases hr : hitScan p w rest with
      | none =>
        simp only [Option.map_none', true_iff]
        intro g hg
        rcases List.mem_cons.mp hg with rfl | hg1
        · exact hp
        · exact (ih.mp hr) g hg1
      | some fs'' =>
        simp only [Option.map_some']
        constructor
        · intro hc; simp at hc
        · intro hall
          have hnone : hitScan p w rest = none :=
            ih.mpr fun g hg => hall g (List.mem_cons_of_mem _ hg)
          rw [hnone] at hr
          cases hr

theorem hitScan_not_resident {p : Nat} {w : Bool} {fs : List CFrame}
    (h : hitScan p w fs = none) : (fs.any (fun f => f.page == p)) = false := by
  rw [List.any_eq_false]
  intro f hf
  simpa using (hitScan_eq_none.mp h) f hf

theorem hitScan_resident {p : Nat} {w : Bool} {fs fs' : List CFrame}
    (h : hitScan p w fs = some fs') : (fs.any (fun f => f.page == p)) = true := by
  obtain ⟨l1, f, l2, hfs, hp, _, _⟩ := hitScan_decomp h
  rw [List.any_eq_true]
  exact ⟨f, by rw [hfs]; exact List.mem_append_right _ (List.mem_cons_self _ _),
    by simp [hp]⟩

/-! ### The second-chance sweep: measure and characterization -/

/-- Number of slots whose reference bit is set; the sweep's termination
measure. -/
def countRef1 (fs : List CFrame) : Nat := (fs.filter (fun f => f.reference != 0)).length

theorem countRef1_le (fs : List CFrame) : countRef1 fs ≤ fs.length :=
  List.length_filter_le _ _

theorem countRef1_set_lt : ∀ (fs : List CFrame) (i : Nat) (f : CFrame),
    fs[i]? = some f → f.reference ≠ 0 →
    countRef1 (fs.set i { f with reference := 0 }) < countRef1 fs := by
  intro fs
  induction fs with
  | nil => intro i f h _; simp at h
  | cons g rest ih =>
    intro i f h href
    cases i with
    | zero =>
      simp only [List.getElem?_cons_zero, Option.some.injEq] at h
      subst h
      show countRef1 ({ g with reference := 0 } :: rest) < countRef1 (g :: rest)
      simp [countRef1, List.filter_cons, bne_iff_ne, href]
    | succ i =>
      simp only [List.getElem?_cons_succ] at h
      have hlt := ih i f h href
      show countRef1 (g :: rest.set i { f with reference := 0 }) < countRef1 (g :: rest)
      by_cases hg : g.reference = 0
      · simpa [countRef1, List.filter_cons, bne_iff_ne, hg] using hlt
      · simpa [countRef1, List.filter_cons, bne_iff_ne, hg, Nat.succ_lt_succ_iff] using hlt

end ClockMMU

end PageSim

namespace PageSim

namespace ClockMMU

theorem mapPD_set : ∀ (fs : List CFrame) (i : Nat) (f : CFrame),
    fs[i]? = some f →
    (fs.set i { f with reference := 0 }).map (fun g => (g.page, g.dirty)) =
      fs.map (fun g => (g.page, g.dirty)) := by
  intro fs
  induction fs with
  | nil => intro i f h; simp at h
  | cons g rest ih =>
    intro i f h
    cases i with
    | zero =>
      simp only [List.getElem?_cons_zero, Option.some.injEq] at h
      subst h
      rfl
    | succ i =>
      simp only [List.getElem?_cons_succ] at h
      show ((g :: rest.set i { f with reference := 0 }).map fun g => (g.page, g.dirty)) = _
      simp only [List.map_cons]
      rw [ih i f h]

/-- The full characterization of the sweep: with fuel exceeding the number of
set reference bits it succeeds, the returned index is in range, the returned
hand is the successor of the index modulo the capacity, and the frame list
comes back with the same length, pages and dirty bits, the selected slot
having a clear reference bit. -/
theorem findAux_spec (nf : Nat) : ∀ (fuel : Nat) (fs : List CFrame) (hand : Nat),
    hand < nf → nf ≤ fs.length → countRef1 fs < fuel →
    ∃ idx fs' hand', findRemovingPageAux nf fuel fs hand = some (idx, fs', hand') ∧
      idx < nf ∧ hand' = (idx + 1) % nf ∧
      fs'.length = fs.length ∧
      fs'.map (fun g => (g.page, g.dirty)) = fs.map (fun g => (g.page, g.dirty)) ∧
      ∃ rf, fs'[idx]? = some rf ∧ rf.reference = 0 := by
  intro fuel
  induction fuel with
  | zero => intro fs hand _ _ h3; omega
  | succ fuel ih =>
    intro fs hand h1 h2 h3
    have hhand : hand < fs.length := lt_of_lt_of_le h1 h2
    cases hsome : fs[hand]? with
    | none =>
      rw [List.getElem?_eq_none_iff] at hsome
      omega
    | some f =>
      by_cases href : f.reference = 0
      · refine ⟨hand, fs, (hand + 1) % nf, ?_, h1, rfl, rfl, rfl, f, hsome, href⟩
        rw [findRemovingPageAux, hsome]
        change (if f.reference = 0 then some (hand, fs, (hand + 1) % nf)
          else findRemovingPageAux nf fuel (fs.set hand { f with reference := 0 })
            ((hand + 1) % nf)) = some (hand, fs, (hand + 1) % nf)
        rw [if_pos href]
      · have hstep := countRef1_set_lt fs hand f hsome href
        have h1' : (hand + 1) % nf < nf := Nat.mod_lt _ (by omega)
        have h2' : nf ≤ (fs.set hand { f with reference := 0 }).length := by
          simpa using h2
        have h3' : countRef1 (fs.set hand { f with reference := 0 }) < fuel := by
          omega
        obtain ⟨idx, fs', hand', heq, hi, hh, hl, hmap, rf, hrf, hrf0⟩ :=
          ih (fs.set hand { f with reference := 0 }) ((hand + 1) % nf) h1' h2' h3'
        refine ⟨idx, fs', hand', ?_, hi, hh, ?_, ?_, rf, hrf, hrf0⟩
        · rw [findRemovingPageAux, hsome]
          change (if f.reference = 0 then some (hand, fs, (hand + 1) % nf)
            else findRemovingPageAux nf fuel (fs.set hand { f with reference := 0 })
              ((hand + 1) % nf)) = some (idx, fs', hand')
          rw [if_neg href]
          exact heq
        · rw [hl]; simp
        · rw [hmap, mapPD_set fs hand f hsome]

/-- The sweep's result is stable under adding fuel. -/
theorem findAux_mono (nf : Nat) : ∀ (fuel fuel' : Nat) (fs : List CFrame) (hand : Nat)
    (r : Nat × List CFrame × Nat), fuel ≤ fuel' →
    findRemovingPageAux nf fuel fs hand = some r →
    findRemovingPageAux nf fuel' fs hand = some r := by
  intro fuel
  induction fuel with
  | zero => intro fuel' fs hand r _ h; simp [findRemovingPageAux] at h
  | succ fuel ih =>
    intro fuel' fs hand r hle h
    obtain ⟨fuel'', rfl⟩ : ∃ k, fuel' = k + 1 := ⟨fuel' - 1, by omega⟩
    rw [findRemovingPageAux] at h ⊢
    cases hs : fs[hand]? with
    | none =>
      rw [hs] at h
      change none = some r at h
      cases h
    | some f =>
      rw [hs] at h
      change (if f.reference = 0 then some (hand, fs, (hand + 1) % nf)
        else findRemovingPageAux nf fuel (fs.set hand { f with reference := 0 })
          ((hand + 1) % nf)) = some r at h
      change (if f.reference = 0 then some (hand, fs, (hand + 1) % nf)
        else findRemovingPageAux nf fuel'' (fs.set hand { f with reference := 0 })
          ((hand + 1) % nf)) = some r
      by_cases href : f.reference = 0
      · rw [if_pos href] at h ⊢; exact h
      · rw [if_neg href] at h ⊢
        exact ih fuel'' _ _ _ (by omega) h

end ClockMMU

end PageSim

namespace PageSim

theorem nodup_set {β : Type} : ∀ (l : List β) (i : Nat) (a : β),
    l.Nodup → a ∉ l → (l.set i a).Nodup := by
  intro l
  induction l with
  | nil => intro i a _ _; simp
  | cons b rest ih =>
    intro i a hnd ha
    cases i with
    | zero =>
      show (a :: rest).Nodup
      rw [List.nodup_cons] at hnd ⊢
      exact ⟨fun hm => ha (List.mem_cons_of_mem _ hm), hnd.2⟩
    | succ i =>
      show (b :: rest.set i a).Nodup
      rw [List.nodup_cons] at hnd ⊢
      refine ⟨?_, ih i a hnd.2 (fun hm => ha (List.mem_cons_of_mem _ hm))⟩
      intro hm
      rcases List.mem_or_eq_of_mem_set hm with h1 | h1
      · exact hnd.1 h1
      · subst h1
        exact ha (List.mem_cons_self _ _)

theorem mem_set_self {β : Type} : ∀ (l : List β) (i : Nat) (a : β), i < l.length →
    a ∈ l.set i a := by
  intro l
  induction l with
  | nil => intro i a h; simp at h
  | cons b rest ih =>
    intro i a h
    cases i with
    | zero => exact List.mem_cons_self _ _
    | succ i =>
      show a ∈ b :: rest.set i a
      exact List.mem_cons_of_mem _ (ih i a (by simpa using h))

theorem mem_of_getElem_some {β : Type} : ∀ {l : List β} {i : Nat} {a : β},
    l[i]? = some a → a ∈ l := by
  intro l
  induction l with
  | nil => intro i a h; simp at h
  | cons b rest ih =>
    intro i a h
    cases i with
    | zero =>
      simp at h
      subst h
      exact List.mem_cons_self _ _
    | succ i =>
      simp at h
      exact List.mem_cons_of_mem _ (ih h)

namespace ClockMMU

theorem mapPD_mem {fs fs' : List CFrame}
    (hmap : fs'.map (fun g => (g.page, g.dirty)) = fs.map (fun g => (g.page, g.dirty))) :
    ∀ g ∈ fs', ∃ e ∈ fs, e.page = g.page ∧ e.dirty = g.dirty := by
  intro g hg
  have hm : (g.page, g.dirty) ∈ fs.map (fun g => (g.page, g.dirty)) := by
    rw [← hmap]
    exact List.mem_map_of_mem _ hg
  obtain ⟨e, he, hee⟩ := List.mem_map.mp hm
  refine ⟨e, he, ?_, ?_⟩
  · exact congrArg Prod.fst hee
  · exact congrArg Prod.snd hee

theorem mapPD_pages {fs fs' : List CFrame}
    (hmap : fs'.map (fun g => (g.page, g.dirty)) = fs.map (fun g => (g.page, g.dirty))) :
    fs'.map (fun f => f.page) = fs.map (fun f => f.page) := by
  have h := congrArg (List.map Prod.fst) hmap
  simpa [List.map_map, Function.comp] using h

/-! ### access_memory branch equations (Clock) -/

theorem clock_access_hit_eq {s : ClockState} {p : Nat} {w : Bool} {fs : List CFrame}
    (h : hitScan p w s.frames = some fs) :
    access_memory s p w = some { s with frames := fs } := by
  unfold access_memory
  rw [h]

theorem clock_access_fault_free_eq {s : ClockState} {p : Nat} {w : Bool}
    (h : hitScan p w s.frames = none)
    (hroom : s.frames.length < s.number_frames) :
    access_memory s p w = some { s with
      page_faults := s.page_faults + 1, disk_reads := s.disk_reads + 1,
      frames := s.frames ++ [{ page := p, dirty := w, reference := 1 }] } := by
  unfold access_memory
  rw [h]
  simp only []
  rw [if_pos hroom]

theorem clock_access_evict_eq {s : ClockState} {p : Nat} {w : Bool}
    {idx : Nat} {fs : List CFrame} {hand : Nat} {rf : CFrame}
    (h : hitScan p w s.frames = none)
    (hroom : ¬ s.frames.length < s.number_frames)
    (hfind : findRemovingPageAux s.number_frames (s.frames.length + 1) s.frames
      s.clock_hand = some (idx, fs, hand))
    (hrf : fs[idx]? = some rf) :
    access_memory s p w = some { s with
      frames := fs.set idx { page := p, dirty := w, reference := 1 },
      clock_hand := hand,
      page_faults := s.page_faults + 1, disk_reads := s.disk_reads + 1,
      disk_writes := s.disk_writes + (if rf.dirty then 1 else 0) } := by
  unfold access_memory
  rw [h]
  simp only []
  rw [if_neg hroom, hfind]
  simp only [hrf]
  cases hd : rf.dirty <;> simp [hd]

end ClockMMU

end PageSim

namespace PageSim

namespace ClockMMU

/-- Well-formedness of every reachable Clock state (capacity at least 1):
the hand stays inside the array, the array respects the capacity, and pages
are unique. -/
def ClockWF (s : ClockState) : Prop :=
  s.clock_hand < s.number_frames ∧
  s.frames.length ≤ s.number_frames ∧
  (s.frames.map (fun f => f.page)).Nodup

theorem clock_init_WF (c : Nat) (h : 1 ≤ c) : ClockWF (init c) :=
  ⟨by simpa [init] using h, by simp [init], by simp [init]⟩

/-- The exact condition under which `clockmmu.py` increments `disk_writes`
on an access to page `p`: a fault with a full array whose sweep selects a
dirty slot. -/
def clockWriteBack (s : ClockState) (p : Nat) : Bool :=
  if s.frames.any (fun f => f.page == p) then false
  else if s.frames.length < s.number_frames then false
  else
    match findRemovingPageAux s.number_frames (s.frames.length + 1) s.frames
        s.clock_hand with
    | none => false
    | some (idx, fs, _) => ((fs[idx]?).map (fun f => f.dirty)).getD false

/-- One access of the Clock policy from a well-formed state: it succeeds,
preserves well-formedness and the capacity, bumps the fault and read
counters exactly on a miss, bumps the write counter exactly on a dirty
eviction, leaves the page resident, and preserves all-clean frame sets under
a read. -/
theorem clock_access_step {s : ClockState} (hwf : ClockWF s) (p : Nat) (w : Bool) :
    ∃ s', access_memory s p w = some s' ∧ ClockWF s' ∧
      s'.number_frames = s.number_frames ∧
      s'.page_faults = s.page_faults +
        (if s.frames.any (fun f => f.page == p) then 0 else 1) ∧
      s'.disk_reads = s.disk_reads +
        (if s.frames.any (fun f => f.page == p) then 0 else 1) ∧
      s'.disk_writes = s.disk_writes + (if clockWriteBack s p then 1 else 0) ∧
      (s'.frames.any (fun f => f.page == p)) = true ∧
      ((∀ f ∈ s.frames, f.dirty = false) → w = false →
        (∀ f ∈ s'.frames, f.dirty = false) ∧ s'.disk_writes = s.disk_writes) := by
  obtain ⟨hhand, hlen, hnd⟩ := hwf
  cases hh : hitScan p w s.frames with
  | some fs =>
    obtain ⟨l1, f, l2, hfs, hp, hl1, hfs'⟩ := hitScan_decomp hh
    have hres := hitScan_resident hh
    refine ⟨_, clock_access_hit_eq hh, ⟨hhand, ?_, ?_⟩, rfl, ?_, ?_, ?_, ?_, ?_⟩
    · show fs.length ≤ s.number_frames
      have heq : fs.length = s.frames.length := by
        rw [hfs, hfs']
        simp
      omega
    · show (fs.map (fun f => f.page)).Nodup
      have heq : fs.map (fun f => f.page) = s.frames.map (fun f => f.page) := by
        rw [hfs, hfs']
        simp
      rw [heq]
      exact hnd
    · simp [hres]
    · simp [hres]
    · show s.disk_writes = s.disk_writes + (if clockWriteBack s p then 1 else 0)
      simp [clockWriteBack, hres]
    · show (fs.any (fun f => f.page == p)) = true
      rw [hfs']
      refine List.any_eq_true.mpr ⟨_, List.mem_append_right _ (List.mem_cons_self _ _), ?_⟩
      simp [hp]
    · intro hclean hw
      subst hw
      refine ⟨?_, rfl⟩
      intro g hg
      rw [hfs'] at hg
      rcases List.mem_append.mp hg with h1 | h1
      · exact hclean g (by rw [hfs]; exact List.mem_append_left _ h1)
      · rcases List.mem_cons.mp h1 with rfl | h2
        · have hfd : f.dirty = false :=
            hclean f (by rw [hfs]; exact List.mem_append_right _ (List.mem_cons_self _ _))
          simp [hfd]
        · exact hclean g (by rw [hfs]; exact List.mem_append_right _ (List.mem_cons_of_mem _ h2))
  | none =>
    have hres := hitScan_not_resident hh
    have hnores : ∀ f ∈ s.frames, f.page ≠ p := hitScan_eq_none.mp hh
    by_cases hroom : s.frames.length < s.number_frames
    · refine ⟨_, clock_access_fault_free_eq hh hroom, ⟨hhand, ?_, ?_⟩, rfl, ?_, ?_, ?_, ?_, ?_⟩
      · show (s.frames ++ [({ page := p, dirty := w, reference := 1 } : CFrame)]).length ≤
          s.number_frames
        rw [List.length_append]
        show s.frames.length + 1 ≤ s.number_frames
        omega
      · show ((s.frames ++ [({ page := p, dirty := w, reference := 1 } : CFrame)]).map
          (fun f => f.page)).Nodup
        rw [List.map_append]
        refine nodup_append_singleton hnd ?_
        intro hm
        obtain ⟨g, hg, hgp⟩ := List.mem_map.mp hm
        exact hnores g hg hgp
      · simp [hres]
      · simp [hres]
      · show s.disk_writes = s.disk_writes + (if clockWriteBack s p then 1 else 0)
        simp [clockWriteBack, hres, hroom]
      · show ((s.frames ++ [({ page := p, dirty := w, reference := 1 } : CFrame)]).any
          (fun f => f.page == p)) = true
        rw [List.any_append]
        simp
      · intro hclean hw
        subst hw
        refine ⟨?_, rfl⟩
        intro g hg
        rcases List.mem_append.mp hg with h1 | h1
        · exact hclean g h1
        · rw [List.mem_singleton] at h1
          subst h1
          rfl
    · have h2 : s.number_frames ≤ s.frames.length := by omega
      have hcnt : countRef1 s.frames < s.frames.length + 1 :=
        Nat.lt_succ_of_le (countRef1_le s.frames)
      obtain ⟨idx, fs, hand', hfind, hidx, hhand', hflen, hmap, rf, hrf, hrf0⟩ :=
        findAux_spec s.number_frames (s.frames.length + 1) s.frames s.clock_hand
          hhand h2 hcnt
      have hidxlen : idx < fs.length := by
        by_contra hc
        rw [List.getElem?_eq_none_iff.mpr (by omega)] at hrf
        cases hrf
      have hpages := mapPD_pages hmap
      refine ⟨_, clock_access_evict_eq hh hroom hfind hrf, ⟨?_, ?_, ?_⟩, rfl,
        ?_, ?_, ?_, ?_, ?_⟩
      · show hand' < s.number_frames
        rw [hhand']
        exact Nat.mod_lt _ (by omega)
      · show (fs.set idx ({ page := p, dirty := w, reference := 1 } : CFrame)).length ≤
          s.number_frames
        rw [List.length_set, hflen]
        exact hlen
      · show ((fs.set idx ({ page := p, dirty := w, reference := 1 } : CFrame)).map
          (fun f => f.page)).Nodup
        rw [List.map_set]
        refine nodup_set _ _ _ (by rw [hpages]; exact hnd) ?_
        intro hm
        rw [hpages] at hm
        obtain ⟨g, hg, hgp⟩ := List.mem_map.mp hm
        exact hnores g hg hgp
      · simp [hres]
      · simp [hres]
      · show s.disk_writes + (if rf.dirty then 1 else 0) =
          s.disk_writes + (if clockWriteBack s p then 1 else 0)
        simp [clockWriteBack, hres, hroom, hfind, hrf]
      · show ((fs.set idx ({ page := p, dirty := w, reference := 1 } : CFrame)).any
          (fun f => f.page == p)) = true
        exact List.any_eq_true.mpr ⟨_, mem_set_self _ _ _ hidxlen, by simp⟩
      · intro hclean hw
        subst hw
        have hfsclean : ∀ g ∈ fs, g.dirty = false := by
          intro g hg
          obtain ⟨e, he, _, hed⟩ := mapPD_mem hmap g hg
          rw [← hed]
          exact hclean e he
        constructor
        · intro g hg
          rcases List.mem_or_eq_of_mem_set hg with h1 | h1
          · exact hfsclean g h1
          · subst h1
            rfl
        · show s.disk_writes + (if rf.dirty then 1 else 0) = s.disk_writes
          rw [hfsclean rf (mem_of_getElem_some hrf)]
          rfl

end ClockMMU

end PageSim

namespace PageSim

/-- Number of non-resident accesses along a Clock run. -/
def clockCountFaults : List Access → ClockState → Nat
  | [], _ => 0
  | a :: t, s =>
    (if s.frames.any (fun f => f.page == a.page) then 0 else 1) +
      match ClockMMU.access_memory s a.page a.is_write with
      | none => 0
      | some s' => clockCountFaults t s'

theorem clockRun_cons (a : Access) (t : List Access) (s : ClockState) :
    clockRun (a :: t) s =
      match ClockMMU.access_memory s a.page a.is_write with
      | none => none
      | some s' => clockRun t s' := rfl

theorem clockRun_step : ∀ {t : List Access} {s : ClockState}, ClockMMU.ClockWF s →
    ∃ s', clockRun t s = some s' ∧ ClockMMU.ClockWF s' ∧
      s'.number_frames = s.number_frames ∧
      s'.page_faults = s.page_faults + clockCountFaults t s ∧
      s'.disk_reads = s.disk_reads + clockCountFaults t s := by
  intro t
  induction t with
  | nil =>
    intro s hwf
    exact ⟨s, rfl, hwf, rfl, by simp [clockCountFaults], by simp [clockCountFaults]⟩
  | cons a t ih =>
    intro s hwf
    obtain ⟨s1, ha, hwf1, hnf, hpf, hdr, _, _, _⟩ :=
      ClockMMU.clock_access_step hwf a.page a.is_write
    obtain ⟨s2, h2, hwf2, hnf2, hpf2, hdr2⟩ := ih hwf1
    have hc : clockCountFaults (a :: t) s =
        (if s.frames.any (fun f => f.page == a.page) then 0 else 1) +
          clockCountFaults t s1 := by
      rw [clockCountFaults, ha]
    refine ⟨s2, ?_, hwf2, by omega, ?_, ?_⟩
    · rw [clockRun_cons, ha]
      exact h2
    · rw [hpf2, hpf, hc]
      omega
    · rw [hdr2, hdr, hc]
      omega

theorem clockRun_clean : ∀ {t : List Access} {s s' : ClockState}, ClockMMU.ClockWF s →
    clockRun t s = some s' → readsOnly t →
    (∀ f ∈ s.frames, f.dirty = false) →
    (∀ f ∈ s'.frames, f.dirty = false) ∧ s'.disk_writes = s.disk_writes := by
  intro t
  induction t with
  | nil =>
    intro s s' _ h _ hclean
    injection h with h
    subst h
    exact ⟨hclean, rfl⟩
  | cons a t ih =>
    intro s s' hwf h hro hclean
    obtain ⟨s1, ha, hwf1, _, _, _, _, _, hcl⟩ :=
      ClockMMU.clock_access_step hwf a.page a.is_write
    rw [clockRun_cons, ha] at h
    have hw : a.is_write = false := hro a (List.mem_cons_self _ _)
    obtain ⟨hc1, hw1⟩ := hcl hclean hw
    obtain ⟨hc2, hw2⟩ := ih hwf1 h (fun b hb => hro b (List.mem_cons_of_mem _ hb)) hc1
    exact ⟨hc2, by omega⟩

namespace ClockMMU

/-- A read access to a page resident with a clear dirty bit keeps the page
resident and clean, and the access is a hit (counters untouched). -/
theorem clock_read_hit {s : ClockState} {p : Nat} {f : CFrame}
    (hwf : ClockWF s) (hf : f ∈ s.frames) (hp : f.page = p) (hd : f.dirty = false) :
    ∃ s', access_memory s p false = some s' ∧ ClockWF s' ∧
      s'.number_frames = s.number_frames ∧
      s'.page_faults = s.page_faults ∧
      s'.disk_reads = s.disk_reads ∧
      s'.disk_writes = s.disk_writes ∧
      ∃ f' ∈ s'.frames, f'.page = p ∧ f'.dirty = false := by
  have hres : (s.frames.any (fun g => g.page == p)) = true :=
    List.any_eq_true.mpr ⟨f, hf, by simp [hp]⟩
  obtain ⟨s', heq, hwf', hnf, hpf, hdr, hdw, hres', _⟩ := clock_access_step hwf p false
  rw [hres] at hpf hdr
  have hwb : clockWriteBack s p = false := by
    simp [clockWriteBack, hres]
  rw [hwb] at hdw
  simp at hpf hdr hdw
  refine ⟨s', heq, hwf', hnf, hpf, hdr, hdw, ?_⟩
  cases hh : hitScan p false s.frames with
  | none =>
    exact absurd hres (by rw [hitScan_not_resident hh]; simp)
  | some fs =>
    rw [clock_access_hit_eq hh] at heq
    injection heq with heq
    obtain ⟨l1, f0, l2, hfs, hp0, hl0, hfs'⟩ := hitScan_decomp hh
    have hf0 : f0 ∈ s.frames := by
      rw [hfs]
      exact List.mem_append_right _ (List.mem_cons_self _ _)
    have hff0 : f = f0 := by
      obtain ⟨_, _, hnd⟩ := hwf
      exact List.inj_on_of_nodup_map hnd hf hf0 (by rw [hp, hp0])
    refine ⟨{ f0 with reference := 1, dirty := f0.dirty || false }, ?_, by simpa using hp0, ?_⟩
    · rw [← heq]
      show ({ page := f0.page, dirty := f0.dirty || false, reference := 1 } : CFrame) ∈ fs
      rw [hfs']
      exact List.mem_append_right _ (List.mem_cons_self _ _)
    · subst hff0
      simp [hd]

end ClockMMU

end PageSim

namespace PageSim

namespace RandMMU

/-! ### access_memory branch equations (Random) -/

theorem rand_access_hit {s : RandState} {p : Nat} {w : Bool} {c : Nat} {d : Bool}
    (h : lookupFrame s.frames p = some d) :
    access_memory s p w c = some { s with frames := setFrame s.frames p (d || w) } := by
  unfold access_memory
  rw [h]

theorem rand_access_fault_free {s : RandState} {p : Nat} {w : Bool} {c : Nat}
    (h : lookupFrame s.frames p = none)
    (hroom : s.frames.length < s.number_frames) :
    access_memory s p w c = some
      { s with page_faults := s.page_faults + 1, disk_reads := s.disk_reads + 1,
               frames := s.frames ++ [(p, w)] } := by
  unfold access_memory
  rw [h]
  simp only []
  rw [if_neg (by omega : ¬ s.number_frames ≤ s.frames.length)]

theorem rand_access_fault_evict {s : RandState} {p : Nat} {w : Bool} {c : Nat}
    {rp : Nat} {rd : Bool}
    (h : lookupFrame s.frames p = none)
    (hfull : s.number_frames ≤ s.frames.length)
    (hc : s.frames[c % s.frames.length]? = some (rp, rd)) :
    access_memory s p w c = some
      { s with page_faults := s.page_faults + 1, disk_reads := s.disk_reads + 1,
               disk_writes := s.disk_writes + (if rd then 1 else 0),
               frames := removeFrame s.frames rp ++ [(p, w)] } := by
  unfold access_memory
  rw [h]
  simp only []
  rw [if_pos hfull, hc]
  cases hd : rd <;> simp [hd]

theorem rand_access_fault_err {s : RandState} {p : Nat} {w : Bool} {c : Nat}
    (h : lookupFrame s.frames p = none)
    (hfull : s.number_frames ≤ s.frames.length)
    (hnil : s.frames = []) :
    access_memory s p w c = none := by
  unfold access_memory
  rw [h]
  simp only []
  rw [if_pos hfull, hnil]
  rfl

theorem rand_access_total (s : RandState) (p : Nat) (w : Bool) (c : Nat)
    (h1 : 1 ≤ s.number_frames) :
    ∃ s', access_memory s p w c = some s' := by
  cases hl : lookupFrame s.frames p with
  | some d => exact ⟨_, rand_access_hit hl⟩
  | none =>
    by_cases hfull : s.number_frames ≤ s.frames.length
    · have hne : 0 < s.frames.length := by omega
      have hlt : c % s.frames.length < s.frames.length := Nat.mod_lt _ hne
      cases hc : s.frames[c % s.frames.length]? with
      | none =>
        rw [List.getElem?_eq_none_iff] at hc
        omega
      | some e =>
        obtain ⟨rp, rd⟩ := e
        exact ⟨_, rand_access_fault_evict hl hfull hc⟩
    · exact ⟨_, rand_access_fault_free hl (by omega)⟩

/-- Well-formedness of every reachable Random state. -/
def RandWF (s : RandState) : Prop :=
  s.frames.length ≤ s.number_frames ∧ (s.frames.map Prod.fst).Nodup

theorem rand_init_WF (c : Nat) : RandWF (init c) := ⟨by simp [init], by simp [init]⟩

/-- The exact condition under which `randmmu.py` increments `disk_writes`
on an access to page `p` with random outcome `c`: a fault at capacity whose
victim is dirty. -/
def randWriteBack (s : RandState) (p : Nat) (c : Nat) : Bool :=
  (lookupFrame s.frames p).isNone &&
  decide (s.number_frames ≤ s.frames.length) &&
  ((s.frames[c % s.frames.length]?).map Prod.snd).getD false

theorem rand_access_counters {s : RandState} {p : Nat} {w : Bool} {c : Nat}
    {s' : RandState} (hacc : access_memory s p w c = some s') :
    s'.number_frames = s.number_frames ∧
    s'.page_faults = s.page_faults + (if (lookupFrame s.frames p).isSome then 0 else 1) ∧
    s'.disk_reads = s.disk_reads + (if (lookupFrame s.frames p).isSome then 0 else 1) ∧
    s'.disk_writes = s.disk_writes + (if randWriteBack s p c then 1 else 0) := by
  cases hl : lookupFrame s.frames p with
  | some d =>
    rw [rand_access_hit hl] at hacc
    injection hacc with hacc
    subst hacc
    simp [randWriteBack, hl]
  | none =>
    by_cases hfull : s.number_frames ≤ s.frames.length
    · cases hc : s.frames[c % s.frames.length]? with
      | none =>
        have hnil : s.frames = [] := by
          rw [List.getElem?_eq_none_iff] at hc
          by_contra hne
          have hpos : 0 < s.frames.length := List.length_pos.mpr hne
          have := Nat.mod_lt c hpos
          omega
        rw [rand_access_fault_err hl hfull hnil] at hacc
        cases hacc
      | some e =>
        obtain ⟨rp, rd⟩ := e
        rw [rand_access_fault_evict hl hfull hc] at hacc
        injection hacc with hacc
        subst hacc
        simp [randWriteBack, hl, hfull, hc]
    · rw [rand_access_fault_free hl (by omega)] at hacc
      injection hacc with hacc
      subst hacc
      simp [randWriteBack, hl, hfull]

theorem rand_access_WF {s : RandState} {p : Nat} {w : Bool} {c : Nat} {s' : RandState}
    (hacc : access_memory s p w c = some s') (hwf : RandWF s) : RandWF s' := by
  obtain ⟨hlen, hkeys⟩ := hwf
  cases hl : lookupFrame s.frames p with
  | some d =>
    rw [rand_access_hit hl] at hacc
    injection hacc with hacc
    subst hacc
    constructor
    · simpa [length_setFrame] using hlen
    · simpa [map_fst_setFrame] using hkeys
  | none =>
    by_cases hfull : s.number_frames ≤ s.frames.length
    · cases hc : s.frames[c % s.frames.length]? with
      | none =>
        have hnil : s.frames = [] := by
          rw [List.getElem?_eq_none_iff] at hc
          by_contra hne
          have hpos : 0 < s.frames.length := List.length_pos.mpr hne
          have := Nat.mod_lt c hpos
          omega
        rw [rand_access_fault_err hl hfull hnil] at hacc
        cases hacc
      | some e =>
        obtain ⟨rp, rd⟩ := e
        rw [rand_access_fault_evict hl hfull hc] at hacc
        injection hacc with hacc
        subst hacc
        have hrp : lookupFrame s.frames rp = some rd :=
          lookupFrame_eq_of_mem hkeys (mem_of_getElem_some hc)
        have hsub := removeFrame_sublist s.frames rp
        constructor
        · show (removeFrame s.frames rp ++ [(p, w)]).length ≤ s.number_frames
          rw [List.length_append]
          have := length_removeFrame hrp
          show (removeFrame s.frames rp).length + 1 ≤ s.number_frames
          omega
        · show ((removeFrame s.frames rp ++ [(p, w)]).map Prod.fst).Nodup
          rw [List.map_append]
          refine nodup_append_singleton (hkeys.sublist (hsub.map _)) ?_
          intro hmem
          exact ((lookupFrame_eq_none _ _).mp (lookupFrame_removeFrame_none hl))
            (by simpa using hmem)
    · rw [rand_access_fault_free hl (by omega)] at hacc
      injection hacc with hacc
      subst hacc
      constructor
      · show (s.frames ++ [(p, w)]).length ≤ s.number_frames
        rw [List.length_append]
        show s.frames.length + 1 ≤ s.number_frames
        omega
      · show ((s.frames ++ [(p, w)]).map Prod.fst).Nodup
        rw [List.map_append]
        refine nodup_append_singleton hkeys ?_
        intro hmem
        exact ((lookupFrame_eq_none _ _).mp hl) (by simpa using hmem)

theorem rand_access_resident_after {s : RandState} {p : Nat} {w : Bool} {c : Nat}
    {s' : RandState} (hacc : access_memory s p w c = some s') :
    ∃ d, lookupFrame s'.frames p = some d := by
  cases hl : lookupFrame s.frames p with
  | some d =>
    rw [rand_access_hit hl] at hacc
    injection hacc with hacc
    subst hacc
    exact ⟨_, lookupFrame_setFrame_self hl _⟩
  | none =>
    by_cases hfull : s.number_frames ≤ s.frames.length
    · cases hc : s.frames[c % s.frames.length]? with
      | none =>
        have hnil : s.frames = [] := by
          rw [List.getElem?_eq_none_iff] at hc
          by_contra hne
          have hpos : 0 < s.frames.length := List.length_pos.mpr hne
          have := Nat.mod_lt c hpos
          omega
        rw [rand_access_fault_err hl hfull hnil] at hacc
        cases hacc
      | some e =>
        obtain ⟨rp, rd⟩ := e
        rw [rand_access_fault_evict hl hfull hc] at hacc
        injection hacc with hacc
        subst hacc
        exact ⟨_, lookupFrame_append_single _ (lookupFrame_removeFrame_none hl)⟩
    · rw [rand_access_fault_free hl (by omega)] at hacc
      injection hacc with hacc
      subst hacc
      exact ⟨_, lookupFrame_append_single _ hl⟩

theorem rand_access_clean {s : RandState} {p : Nat} {c : Nat} {s' : RandState}
    (hacc : access_memory s p false c = some s')
    (hclean : ∀ e ∈ s.frames, e.2 = false) :
    (∀ e ∈ s'.frames, e.2 = false) ∧ s'.disk_writes = s.disk_writes := by
  cases hl : lookupFrame s.frames p with
  | some d =>
    rw [rand_access_hit hl] at hacc
    injection hacc with hacc
    subst hacc
    refine ⟨?_, rfl⟩
    show ∀ e ∈ setFrame s.frames p (d || false), e.2 = false
    intro e he
    rcases mem_setFrame he with h1 | h1
    · exact hclean e h1
    · subst h1
      have hd : d = false := hclean _ (lookupFrame_mem hl)
      simp [hd]
  | none =>
    by_cases hfull : s.number_frames ≤ s.frames.length
    · cases hc : s.frames[c % s.frames.length]? with
      | none =>
        have hnil : s.frames = [] := by
          rw [List.getElem?_eq_none_iff] at hc
          by_contra hne
          have hpos : 0 < s.frames.length := List.length_pos.mpr hne
          have := Nat.mod_lt c hpos
          omega
        rw [rand_access_fault_err hl hfull hnil] at hacc
        cases hacc
      | some e =>
        obtain ⟨rp, rd⟩ := e
        rw [rand_access_fault_evict hl hfull hc] at hacc
        injection hacc with hacc
        subst hacc
        have hrd : rd = false := hclean _ (mem_of_getElem_some hc)
        constructor
        · show ∀ e ∈ removeFrame s.frames rp ++ [(p, false)], e.2 = false
          intro e he
          rcases List.mem_append.mp he with h1 | h1
          · exact hclean e ((removeFrame_sublist s.frames rp).subset h1)
          · rw [List.mem_singleton] at h1
            subst h1
            rfl
        · show s.disk_writes + (if rd then 1 else 0) = s.disk_writes
          rw [hrd]
          rfl
    · rw [rand_access_fault_free hl (by omega)] at hacc
      injection hacc with hacc
      subst hacc
      refine ⟨?_, rfl⟩
      show ∀ e ∈ s.frames ++ [(p, false)], e.2 = false
      intro e he
      rcases List.mem_append.mp he with h1 | h1
      · exact hclean e h1
      · rw [List.mem_singleton] at h1
        subst h1
        rfl

end RandMMU

end PageSim

namespace PageSim

/-- Number of non-resident accesses along a Random run. -/
def randCountFaults : List (Access × Nat) → RandState → Nat
  | [], _ => 0
  | (a, c) :: t, s =>
    (if (lookupFrame s.frames a.page).isSome then 0 else 1) +
      match RandMMU.access_memory s a.page a.is_write c with
      | none => 0
      | some s' => randCountFaults t s'

theorem randRun_cons (a : Access) (c : Nat) (t : List (Access × Nat)) (s : RandState) :
    randRun ((a, c) :: t) s =
      match RandMMU.access_memory s a.page a.is_write c with
      | none => none
      | some s' => randRun t s' := rfl

theorem randRun_total : ∀ (t : List (Access × Nat)) (s : RandState),
    1 ≤ s.number_frames → ∃ s', randRun t s = some s' := by
  intro t
  induction t with
  | nil => exact fun s _ => ⟨s, rfl⟩
  | cons ac t ih =>
    obtain ⟨a, c⟩ := ac
    intro s h
    obtain ⟨s1, h1⟩ := RandMMU.rand_access_total s a.page a.is_write c h
    have hnf : s1.number_frames = s.number_frames := (RandMMU.rand_access_counters h1).1
    obtain ⟨s2, h2⟩ := ih s1 (by omega)
    refine ⟨s2, ?_⟩
    rw [randRun_cons, h1]
    exact h2

theorem randRun_faults : ∀ {t : List (Access × Nat)} {s s' : RandState},
    randRun t s = some s' →
    s'.page_faults = s.page_faults + randCountFaults t s ∧
    s'.disk_reads = s.disk_reads + randCountFaults t s := by
  intro t
  induction t with
  | nil =>
    intro s s' h
    injection h with h
    subst h
    simp [randCountFaults]
  | cons ac t ih =>
    obtain ⟨a, c⟩ := ac
    intro s s' h
    rw [randRun_cons] at h
    cases ha : RandMMU.access_memory s a.page a.is_write c with
    | none => rw [ha] at h; simp at h
    | some s1 =>
      rw [ha] at h
      obtain ⟨hf, hr⟩ := ih h
      obtain ⟨_, hpf, hdr, _⟩ := RandMMU.rand_access_counters ha
      have hc : randCountFaults ((a, c) :: t) s =
          (if (lookupFrame s.frames a.page).isSome then 0 else 1) +
            randCountFaults t s1 := by
        rw [randCountFaults, ha]
      constructor
      · rw [hf, hpf, hc]; omega
      · rw [hr, hdr, hc]; omega

theorem randRun_WF : ∀ {t : List (Access × Nat)} {s s' : RandState},
    randRun t s = some s' → RandMMU.RandWF s → RandMMU.RandWF s' := by
  intro t
  induction t with
  | nil =>
    intro s s' h hwf
    injection h with h
    subst h
    exact hwf
  | cons ac t ih =>
    obtain ⟨a, c⟩ := ac
    intro s s' h hwf
    rw [randRun_cons] at h
    cases ha : RandMMU.access_memory s a.page a.is_write c with
    | none => rw [ha] at h; simp at h
    | some s1 =>
      rw [ha] at h
      exact ih h (RandMMU.rand_access_WF ha hwf)

theorem randRun_nf : ∀ {t : List (Access × Nat)} {s s' : RandState},
    randRun t s = some s' → s'.number_frames = s.number_frames := by
  intro t
  induction t with
  | nil =>
    intro s s' h
    injection h with h
    subst h
    rfl
  | cons ac t ih =>
    obtain ⟨a, c⟩ := ac
    intro s s' h
    rw [randRun_cons] at h
    cases ha : RandMMU.access_memory s a.page a.is_write c with
    | none => rw [ha] at h; simp at h
    | some s1 =>
      rw [ha] at h
      have := (RandMMU.rand_access_counters ha).1
      rw [ih h, this]

theorem lruRun_nf : ∀ {t : List Access} {s s' : LruState},
    lruRun t s = some s' → s'.number_frames = s.number_frames := by
  intro t
  induction t with
  | nil =>
    intro s s' h
    injection h with h
    subst h
    rfl
  | cons a t ih =>
    intro s s' h
    rw [lruRun_cons] at h
    cases ha : LruMMU.access_memory s a.page a.is_write with
    | none => rw [ha] at h; simp at h
    | some s1 =>
      rw [ha] at h
      have := (LruMMU.access_counters ha).1
      rw [ih h, this]

/-- A random-policy trace with no write accesses. -/
def readsOnlyR (t : List (Access × Nat)) : Prop := ∀ ac ∈ t, (ac : Access × Nat).1.is_write = false

theorem randRun_clean : ∀ {t : List (Access × Nat)} {s s' : RandState},
    randRun t s = some s' → readsOnlyR t →
    (∀ e ∈ s.frames, e.2 = false) →
    (∀ e ∈ s'.frames, e.2 = false) ∧ s'.disk_writes = s.disk_writes := by
  intro t
  induction t with
  | nil =>
    intro s s' h _ hclean
    injection h with h
    subst h
    exact ⟨hclean, rfl⟩
  | cons ac t ih =>
    obtain ⟨a, c⟩ := ac
    intro s s' h hro hclean
    rw [randRun_cons] at h
    cases ha : RandMMU.access_memory s a.page a.is_write c with
    | none => rw [ha] at h; simp at h
    | some s1 =>
      rw [ha] at h
      have hw : a.is_write = false := hro (a, c) (List.mem_cons_self _ _)
      rw [hw] at ha
      obtain ⟨hc1, hw1⟩ := RandMMU.rand_access_clean ha hclean
      obtain ⟨hc2, hw2⟩ := ih h (fun b hb => hro b (List.mem_cons_of_mem _ hb)) hc1
      exact ⟨hc2, by omega⟩

end PageSim

namespace PageSim

namespace ClockMMU

theorem clock_access_err1_eq {s : ClockState} {p : Nat} {w : Bool}
    (h : hitScan p w s.frames = none)
    (hroom : ¬ s.frames.length < s.number_frames)
    (hfind : findRemovingPageAux s.number_frames (s.frames.length + 1) s.frames
      s.clock_hand = none) :
    access_memory s p w = none := by
  unfold access_memory
  rw [h]
  simp only []
  rw [if_neg hroom, hfind]

theorem clock_access_err2_eq {s : ClockState} {p : Nat} {w : Bool}
    {idx : Nat} {fs : List CFrame} {hand : Nat}
    (h : hitScan p w s.frames = none)
    (hroom : ¬ s.frames.length < s.number_frames)
    (hfind : findRemovingPageAux s.number_frames (s.frames.length + 1) s.frames
      s.clock_hand = some (idx, fs, hand))
    (hrf : fs[idx]? = none) :
    access_memory s p w = none := by
  unfold access_memory
  rw [h]
  simp only []
  rw [if_neg hroom, hfind]
  simp only [hrf]

theorem clock_access_resident_after {s s' : ClockState} {p : Nat} {w : Bool}
    (hacc : access_memory s p w = some s') :
    (s'.frames.any (fun f => f.page == p)) = true := by
  cases hh : hitScan p w s.frames with
  | some fs =>
    rw [clock_access_hit_eq hh] at hacc
    injection hacc with hacc
    subst hacc
    obtain ⟨l1, f, l2, hfs, hp, _, hfs'⟩ := hitScan_decomp hh
    show (fs.any fun f => f.page == p) = true
    rw [hfs']
    exact List.any_eq_true.mpr
      ⟨_, List.mem_append_right _ (List.mem_cons_self _ _), by simp [hp]⟩
  | none =>
    by_cases hroom : s.frames.length < s.number_frames
    · rw [clock_access_fault_free_eq hh hroom] at hacc
      injection hacc with hacc
      subst hacc
      show ((s.frames ++ [({ page := p, dirty := w, reference := 1 } : CFrame)]).any
        fun f => f.page == p) = true
      rw [List.any_append]
      simp
    · cases hfind : findRemovingPageAux s.number_frames (s.frames.length + 1)
          s.frames s.clock_hand with
      | none =>
        rw [clock_access_err1_eq hh hroom hfind] at hacc
        cases hacc
      | some r =>
        obtain ⟨idx, fs, hand⟩ := r
        cases hrf : fs[idx]? with
        | none =>
          rw [clock_access_err2_eq hh hroom hfind hrf] at hacc
          cases hacc
        | some rf =>
          rw [clock_access_evict_eq hh hroom hfind hrf] at hacc
          injection hacc with hacc
          subst hacc
          have hidxlen : idx < fs.length := by
            by_contra hcn
            rw [List.getElem?_eq_none_iff.mpr (by omega)] at hrf
            cases hrf
          show ((fs.set idx ({ page := p, dirty := w, reference := 1 } : CFrame)).any
            fun f => f.page == p) = true
          exact List.any_eq_true.mpr ⟨_, mem_set_self _ _ _ hidxlen, by simp⟩

end ClockMMU

/-! ### Repeated read hits (idempotence) -/

theorem lru_read_hit_iter : ∀ (n : Nat) {s : LruState} {p : Nat} {f : LFrame},
    lookupFrame s.frames p = some f → f.dirty = false →
    ∃ s', lruRun (List.replicate n ⟨p, false⟩) s = some s' ∧
      s'.page_faults = s.page_faults ∧ s'.disk_reads = s.disk_reads ∧
      s'.disk_writes = s.disk_writes := by
  intro n
  induction n with
  | zero => exact fun _ _ => ⟨_, rfl, rfl, rfl, rfl⟩
  | succ n ih =>
    intro s p f h hd
    have hstep := LruMMU.access_hit (w := false) h
    have hlook : lookupFrame
        (setFrame s.frames p ⟨f.dirty || false, s.recency_tracker + 1⟩) p =
        some ⟨f.dirty || false, s.recency_tracker + 1⟩ :=
      lookupFrame_setFrame_self h _
    obtain ⟨s', hrun, hpf, hdr, hdw⟩ :=
      ih (s := { s with recency_tracker := s.recency_tracker + 1, frames := setFrame s.frames p ⟨f.dirty || false, s.recency_tracker + 1⟩ }) hlook (by simp [hd])
    refine ⟨s', ?_, by simpa using hpf, by simpa using hdr, by simpa using hdw⟩
    rw [List.replicate_succ, lruRun_cons]
    show (match LruMMU.access_memory s p false with
      | none => none
      | some s1 => lruRun (List.replicate n ⟨p, false⟩) s1) = some s'
    rw [hstep]
    exact hrun

theorem rand_read_hit_iter : ∀ (n : Nat) {s : RandState} {p : Nat} {d : Bool},
    lookupFrame s.frames p = some d →
    ∃ s', randRun (List.replicate n (⟨p, false⟩, 0)) s = some s' ∧
      s'.page_faults = s.page_faults ∧ s'.disk_reads = s.disk_reads ∧
      s'.disk_writes = s.disk_writes := by
  intro n
  induction n with
  | zero => exact fun _ => ⟨_, rfl, rfl, rfl, rfl⟩
  | succ n ih =>
    intro s p d h
    have hstep := RandMMU.rand_access_hit (w := false) (c := 0) h
    have hlook : lookupFrame (setFrame s.frames p (d || false)) p =
        some (d || false) := lookupFrame_setFrame_self h _
    obtain ⟨s', hrun, hpf, hdr, hdw⟩ :=
      ih (s := { s with frames := setFrame s.frames p (d || false) }) hlook
    refine ⟨s', ?_, by simpa using hpf, by simpa using hdr, by simpa using hdw⟩
    rw [List.replicate_succ, randRun_cons]
    show (match RandMMU.access_memory s p false 0 with
      | none => none
      | some s1 => randRun (List.replicate n (⟨p, false⟩, 0)) s1) = some s'
    rw [hstep]
    exact hrun

theorem clock_read_hit_iter : ∀ (n : Nat) {s : ClockState} {p : Nat} {f : CFrame},
    ClockMMU.ClockWF s → f ∈ s.frames → f.page = p → f.dirty = false →
    ∃ s', clockRun (List.replicate n ⟨p, false⟩) s = some s' ∧
      s'.page_faults = s.page_faults ∧ s'.disk_reads = s.disk_reads ∧
      s'.disk_writes = s.disk_writes := by
  intro n
  induction n with
  | zero => exact fun _ _ _ _ => ⟨_, rfl, rfl, rfl, rfl⟩
  | succ n ih =>
    intro s p f hwf hf hp hd
    obtain ⟨s1, hstep, hwf1, _, hpf1, hdr1, hdw1, hf'⟩ :=
      ClockMMU.clock_read_hit hwf hf hp hd
    obtain ⟨f', hf1, hp1, hd1⟩ := hf'
    obtain ⟨s', hrun, hpf, hdr, hdw⟩ := ih hwf1 hf1 hp1 hd1
    refine ⟨s', ?_, by omega, by omega, by omega⟩
    rw [List.replicate_succ, clockRun_cons]
    show (match ClockMMU.access_memory s p false with
      | none => none
      | some s1 => clockRun (List.replicate n ⟨p, false⟩) s1) = some s'
    rw [hstep]
    exact hrun

end PageSim

namespace PageSim

/-- C1: for each policy (LRU, Clock, Random) with capacity at least 1 and any
finite access sequence, the whole run succeeds, `get_total_page_faults`
equals the number of accesses whose page was not resident at the moment that
access was processed, and the count is at least 1 as soon as the sequence is
non-empty. -/
theorem C1_page_fault_count (c : Nat) (hc : 1 ≤ c) (t : List Access)
    (tr : List (Access × Nat)) :
    (∃ s, lruRun t (LruMMU.init c) = some s ∧
       LruMMU.get_total_page_faults s = lruCountFaults t (LruMMU.init c) ∧
       (t ≠ [] → 1 ≤ LruMMU.get_total_page_faults s)) ∧
    (∃ s, clockRun t (ClockMMU.init c) = some s ∧
       ClockMMU.get_total_page_faults s = clockCountFaults t (ClockMMU.init c) ∧
       (t ≠ [] → 1 ≤ ClockMMU.get_total_page_faults s)) ∧
    (∃ s, randRun tr (RandMMU.init c) = some s ∧
       RandMMU.get_total_page_faults s = randCountFaults tr (RandMMU.init c) ∧
       (tr ≠ [] → 1 ≤ RandMMU.get_total_page_faults s)) := by
  refine ⟨?_, ?_, ?_⟩
  · obtain ⟨s, hs⟩ := lruRun_total t (LruMMU.init c) hc
    have h1 := (lruRun_faults hs).1
    refine ⟨s, hs, by simpa [LruMMU.get_total_page_faults, LruMMU.init] using h1, ?_⟩
    intro hne
    rcases t with _ | ⟨a, t'⟩
    · exact absurd rfl hne
    · have hcnt : lruCountFaults (a :: t') (LruMMU.init c) =
          1 + (match LruMMU.access_memory (LruMMU.init c) a.page a.is_write with
               | none => 0
               | some s1 => lruCountFaults t' s1) := by
        rw [lruCountFaults]
        simp [LruMMU.init, lookupFrame]
      show 1 ≤ s.page_faults
      rw [h1, hcnt]
      omega
  · obtain ⟨s, hs, _, _, h1, _⟩ := clockRun_step (ClockMMU.clock_init_WF c hc)
    refine ⟨s, hs, by simpa [ClockMMU.get_total_page_faults, ClockMMU.init] using h1, ?_⟩
    intro hne
    rcases t with _ | ⟨a, t'⟩
    · exact absurd rfl hne
    · have hcnt : clockCountFaults (a :: t') (ClockMMU.init c) =
          1 + (match ClockMMU.access_memory (ClockMMU.init c) a.page a.is_write with
               | none => 0
               | some s1 => clockCountFaults t' s1) := by
        rw [clockCountFaults]
        simp [ClockMMU.init]
      show 1 ≤ s.page_faults
      rw [h1, hcnt]
      omega
  · obtain ⟨s, hs⟩ := randRun_total tr (RandMMU.init c) hc
    have h1 := (randRun_faults hs).1
    refine ⟨s, hs, by simpa [RandMMU.get_total_page_faults, RandMMU.init] using h1, ?_⟩
    intro hne
    rcases tr with _ | ⟨⟨a, ch⟩, tr'⟩
    · exact absurd rfl hne
    · have hcnt : randCountFaults ((a, ch) :: tr') (RandMMU.init c) =
          1 + (match RandMMU.access_memory (RandMMU.init c) a.page a.is_write ch with
               | none => 0
               | some s1 => randCountFaults tr' s1) := by
        rw [randCountFaults]
        simp [RandMMU.init, lookupFrame]
      show 1 ≤ s.page_faults
      rw [h1, hcnt]
      omega

/-- C1 witness at capacity 1 with one concrete access per policy. -/
theorem C1_page_fault_count_witness :
    ∃ s, lruRun [⟨1, false⟩] (LruMMU.init 1) = some s ∧
      LruMMU.get_total_page_faults s = lruCountFaults [⟨1, false⟩] (LruMMU.init 1) ∧
      (([⟨1, false⟩] : List Access) ≠ [] → 1 ≤ LruMMU.get_total_page_faults s) :=
  (C1_page_fault_count 1 (by decide) [⟨1, false⟩] [(⟨1, false⟩, 0)]).1

/-- C2: for every policy and every access sequence (hence every prefix), the
run leaves `get_total_disk_reads` equal to `get_total_page_faults`: both
counters are incremented together, by one per fault. -/
theorem C2_reads_eq_faults (c : Nat) (hc : 1 ≤ c) (t : List Access)
    (tr : List (Access × Nat)) :
    (∀ sl, lruRun t (LruMMU.init c) = some sl →
       LruMMU.get_total_disk_reads sl = LruMMU.get_total_page_faults sl) ∧
    (∀ sc, clockRun t (ClockMMU.init c) = some sc →
       ClockMMU.get_total_disk_reads sc = ClockMMU.get_total_page_faults sc) ∧
    (∀ sr, randRun tr (RandMMU.init c) = some sr →
       RandMMU.get_total_disk_reads sr = RandMMU.get_total_page_faults sr) := by
  refine ⟨?_, ?_, ?_⟩
  · intro sl hsl
    obtain ⟨hf, hr⟩ := lruRun_faults hsl
    show sl.disk_reads = sl.page_faults
    rw [hf, hr]
    rfl
  · intro sc hsc
    obtain ⟨s', h', _, _, hpf, hdr⟩ := clockRun_step (ClockMMU.clock_init_WF c hc)
    rw [hsc] at h'
    injection h' with h'
    subst h'
    show sc.disk_reads = sc.page_faults
    rw [hpf, hdr]
    rfl
  · intro sr hsr
    obtain ⟨hf, hr⟩ := randRun_faults hsr
    show sr.disk_reads = sr.page_faults
    rw [hf, hr]
    rfl

/-- C2 witness at capacity 1 with one concrete access. -/
theorem C2_reads_eq_faults_witness :
    LruMMU.get_total_disk_reads ⟨1, [(1, ⟨false, 1⟩)], 1, 1, 0, 1⟩ =
      LruMMU.get_total_page_faults ⟨1, [(1, ⟨false, 1⟩)], 1, 1, 0, 1⟩ :=
  (C2_reads_eq_faults 1 (by decide) [⟨1, false⟩] [(⟨1, false⟩, 0)]).1
    ⟨1, [(1, ⟨false, 1⟩)], 1, 1, 0, 1⟩ rfl

/-- C3 (code bug): none of the three constructors validates the capacity.
Construction with capacity 0 succeeds and simply stores the value; the
failure surfaces only on the first fault (Python: ValueError from `min` on
an empty dict for LRU, IndexError for Clock and Random — `none` here). -/
theorem C3_capacity_zero_accepted :
    (LruMMU.init 0).number_frames = 0 ∧
    (ClockMMU.init 0).number_frames = 0 ∧
    (RandMMU.init 0).number_frames = 0 ∧
    LruMMU.read_memory (LruMMU.init 0) 1 = none ∧
    ClockMMU.read_memory (ClockMMU.init 0) 1 = none ∧
    RandMMU.read_memory (RandMMU.init 0) 1 0 = none :=
  ⟨rfl, rfl, rfl, rfl, rfl, rfl⟩

/-- C4: for every policy with capacity at least 1, after any run the
resident set holds at most `capacity` frames and every page appears in at
most one frame. -/
theorem C4_capacity_and_uniqueness (c : Nat) (hc : 1 ≤ c) (t : List Access)
    (tr : List (Access × Nat)) :
    (∀ sl, lruRun t (LruMMU.init c) = some sl →
       sl.frames.length ≤ c ∧ (sl.frames.map Prod.fst).Nodup) ∧
    (∀ sc, clockRun t (ClockMMU.init c) = some sc →
       sc.frames.length ≤ c ∧ (sc.frames.map (fun f => f.page)).Nodup) ∧
    (∀ sr, randRun tr (RandMMU.init c) = some sr →
       sr.frames.length ≤ c ∧ (sr.frames.map Prod.fst).Nodup) := by
  refine ⟨?_, ?_, ?_⟩
  · intro sl hsl
    obtain ⟨hlen, hkeys, _, _⟩ := lruRun_WF hsl (LruMMU.init_WF c)
    have hnf : sl.number_frames = c := lruRun_nf hsl
    exact ⟨by omega, hkeys⟩
  · intro sc hsc
    obtain ⟨s', h', hwf', hnf', _, _⟩ := clockRun_step (ClockMMU.clock_init_WF c hc)
    rw [hsc] at h'
    injection h' with h'
    subst h'
    obtain ⟨_, hlen, hnd⟩ := hwf'
    have : sc.number_frames = c := hnf'
    exact ⟨by omega, hnd⟩
  · intro sr hsr
    obtain ⟨hlen, hkeys⟩ := randRun_WF hsr (RandMMU.rand_init_WF c)
    have hnf : sr.number_frames = c := randRun_nf hsr
    exact ⟨by omega, hkeys⟩

/-- C4 witness at capacity 1 with one concrete access. -/
theorem C4_capacity_and_uniqueness_witness :
    (⟨1, [(1, ⟨false, 1⟩)], 1, 1, 0, 1⟩ : LruState).frames.length ≤ 1 ∧
    ((⟨1, [(1, ⟨false, 1⟩)], 1, 1, 0, 1⟩ : LruState).frames.map Prod.fst).Nodup :=
  (C4_capacity_and_uniqueness 1 (by decide) [⟨1, false⟩] [(⟨1, false⟩, 0)]).1
    ⟨1, [(1, ⟨false, 1⟩)], 1, 1, 0, 1⟩ rfl

/-- C6: the Clock scenario of the spec: capacity 2, reads of pages 1, 2, 3
with the hand starting at 0.  Loading page 3 sweeps both slots (clearing
both reference bits, the hand wrapping back to slot 0), evicts page 1 from
slot 0, and leaves pages {3, 2} resident with the hand at 1. -/
theorem C6_clock_scenario :
    ClockMMU.findRemovingPageAux 2 3 [⟨1, false, 1⟩, ⟨2, false, 1⟩] 0 =
      some (0, [⟨1, false, 0⟩, ⟨2, false, 0⟩], 1) ∧
    ∃ s, clockRun [⟨1, false⟩, ⟨2, false⟩, ⟨3, false⟩] (ClockMMU.init 2) = some s ∧
      s.frames.map (fun f => f.page) = [3, 2] ∧
      s.clock_hand = 1 ∧
      s.page_faults = 3 ∧
      (s.frames.any (fun f => f.page == 1)) = false ∧
      (s.frames.any (fun f => f.page == 2)) = true ∧
      (s.frames.any (fun f => f.page == 3)) = true :=
  ⟨rfl, ⟨_, rfl, rfl, rfl, rfl, rfl, rfl, rfl⟩⟩

end PageSim

namespace PageSim

/-- C5: on an LRU fault at capacity (from any reachable state), the evicted
frame is the unique resident frame with strictly smallest `last_used`,
`disk_writes` grows exactly when it was dirty, the new page enters with
`last_used` equal to the current logical clock and `dirty` = is-write, the
evicted page leaves the resident set; and the spec's concrete scenario
(capacity 2; read 1, read 2, read 1, write 3) gives 3 faults, evicts page 2,
leaves {1, 3} resident and `disk_writes` = 0. -/
theorem C5_lru_eviction (c : Nat) (hc : 1 ≤ c) (t : List Access) (p : Nat) (w : Bool)
    (s s' : LruState)
    (hrun : lruRun t (LruMMU.init c) = some s)
    (hmiss : lookupFrame s.frames p = none)
    (hfull : c ≤ s.frames.length)
    (hacc : LruMMU.access_memory s p w = some s') :
    (∃ rp rf, LruMMU.minLastUsed s.frames = some (rp, rf) ∧
      (∀ e ∈ s.frames, e.1 ≠ rp → rf.last_used < e.2.last_used) ∧
      s'.disk_writes = s.disk_writes + (if rf.dirty then 1 else 0) ∧
      lookupFrame s'.frames p = some ⟨w, s.recency_tracker + 1⟩ ∧
      lookupFrame s'.frames rp = none) ∧
    lruRun [⟨1, false⟩, ⟨2, false⟩, ⟨1, false⟩, ⟨3, true⟩] (LruMMU.init 2) =
      some ⟨2, [(1, ⟨false, 3⟩), (3, ⟨true, 4⟩)], 3, 3, 0, 4⟩ := by
  constructor
  · obtain ⟨hlen, hkeys, hstamps, hbound⟩ := lruRun_WF hrun (LruMMU.init_WF c)
    have hnf : s.number_frames = c := lruRun_nf hrun
    have hfull' : s.number_frames ≤ s.frames.length := by omega
    have hne : s.frames ≠ [] := by
      intro he
      rw [he] at hfull'
      simp at hfull'
      omega
    cases hm : LruMMU.minLastUsed s.frames with
    | none => exact absurd ((LruMMU.minLastUsed_eq_none _).mp hm) hne
    | some x =>
      obtain ⟨rp, rf⟩ := x
      rw [LruMMU.access_fault_evict hmiss hfull' hm] at hacc
      injection hacc with hacc
      subst hacc
      have hrp_mem := LruMMU.minLastUsed_mem hm
      have hrp : lookupFrame s.frames rp = some rf := lookupFrame_eq_of_mem hkeys hrp_mem
      refine ⟨rp, rf, rfl, ?_, rfl, ?_, ?_⟩
      · intro e he hne1
        refine LruMMU.minLastUsed_lt_of_nodup hm hstamps e he ?_
        intro heq
        rw [heq] at hne1
        exact hne1 rfl
      · exact lookupFrame_append_single _ (lookupFrame_removeFrame_none hmiss)
      · have hrp_ne : rp ≠ p := by
          intro he
          subst he
          rw [hrp] at hmiss
          cases hmiss
        have hnone := lookupFrame_removeFrame_self hkeys hrp
        show lookupFrame (removeFrame s.frames rp ++ [(p, ⟨w, s.recency_tracker + 1⟩)]) rp
          = none
        rw [lookupFrame_append, hnone]
        simp [lookupFrame, Ne.symm hrp_ne]
  · rfl

/-- C5 witness: capacity 1, read 5, then a faulting read of 7 evicts 5. -/
theorem C5_lru_eviction_witness :
    (∃ rp rf, LruMMU.minLastUsed [(5, (⟨false, 1⟩ : LFrame))] = some (rp, rf) ∧
      (∀ e ∈ [(5, (⟨false, 1⟩ : LFrame))], e.1 ≠ rp → rf.last_used < e.2.last_used) ∧
      (0 : Nat) = 0 + (if rf.dirty then 1 else 0) ∧
      lookupFrame [(7, (⟨false, 2⟩ : LFrame))] 7 = some ⟨false, 2⟩ ∧
      lookupFrame [(7, (⟨false, 2⟩ : LFrame))] rp = none) ∧
    lruRun [⟨1, false⟩, ⟨2, false⟩, ⟨1, false⟩, ⟨3, true⟩] (LruMMU.init 2) =
      some ⟨2, [(1, ⟨false, 3⟩), (3, ⟨true, 4⟩)], 3, 3, 0, 4⟩ :=
  C5_lru_eviction 1 (by decide) [⟨5, false⟩] 7 false
    ⟨1, [(5, ⟨false, 1⟩)], 1, 1, 0, 1⟩ ⟨1, [(7, ⟨false, 2⟩)], 2, 2, 0, 2⟩
    rfl rfl (by decide) rfl

/-- C7: whenever the Clock eviction search runs on a full array (length =
capacity ≥ 1, hand in range) it returns within the fuel the code allots
(length + 1 inspections) and a fortiori within 2·capacity inspections, the
selected slot's reference bit being clear at selection time; and capacity 1
is valid: the single slot is evicted. -/
theorem C7_sweep_bounded (nf : Nat) (hnf : 1 ≤ nf) (fs : List CFrame) (hand : Nat)
    (hlen : fs.length = nf) (hhand : hand < nf) :
    (∃ idx fs' hand',
      ClockMMU.findRemovingPageAux nf (fs.length + 1) fs hand = some (idx, fs', hand') ∧
      ClockMMU.findRemovingPageAux nf (2 * nf) fs hand = some (idx, fs', hand') ∧
      idx < nf ∧ ∃ rf, fs'[idx]? = some rf ∧ rf.reference = 0) ∧
    (∃ s, clockRun [⟨1, false⟩, ⟨2, false⟩] (ClockMMU.init 1) = some s ∧
      s.frames.map (fun f => f.page) = [2]) := by
  constructor
  · obtain ⟨idx, fs', hand', heq, hidx, _, _, _, rf, hrf, hrf0⟩ :=
      ClockMMU.findAux_spec nf (fs.length + 1) fs hand hhand (by omega)
        (Nat.lt_succ_of_le (ClockMMU.countRef1_le fs))
    exact ⟨idx, fs', hand', heq,
      ClockMMU.findAux_mono nf (fs.length + 1) (2 * nf) fs hand _ (by omega) heq,
      hidx, rf, hrf, hrf0⟩
  · exact ⟨_, rfl, rfl⟩

/-- C7 witness: one full slot with the reference bit set. -/
theorem C7_sweep_bounded_witness :
    (∃ idx fs' hand',
      ClockMMU.findRemovingPageAux 1 2 [⟨3, false, 1⟩] 0 = some (idx, fs', hand') ∧
      ClockMMU.findRemovingPageAux 1 (2 * 1) [⟨3, false, 1⟩] 0 = some (idx, fs', hand') ∧
      idx < 1 ∧ ∃ rf, fs'[idx]? = some rf ∧ rf.reference = 0) ∧
    (∃ s, clockRun [⟨1, false⟩, ⟨2, false⟩] (ClockMMU.init 1) = some s ∧
      s.frames.map (fun f => f.page) = [2]) :=
  C7_sweep_bounded 1 (by decide) [⟨3, false, 1⟩] 0 rfl (by decide)

/-- C8: for each policy `disk_writes` is bumped by exactly one precisely
when the access evicts a dirty frame (the three `WriteBack` predicates are
the code's own fault-at-capacity-and-victim-dirty conditions), and over a
trace with no writes it stays 0 after every prefix. -/
theorem C8_disk_writes (c : Nat) (hc : 1 ≤ c) (t : List Access)
    (tr : List (Access × Nat)) :
    (∀ (s s' : LruState) (p : Nat) (w : Bool),
       LruMMU.access_memory s p w = some s' →
       s'.disk_writes = s.disk_writes + (if LruMMU.lruWriteBack s p then 1 else 0)) ∧
    (∀ (s : ClockState) (p : Nat) (w : Bool), ClockMMU.ClockWF s →
       ∃ s', ClockMMU.access_memory s p w = some s' ∧
         s'.disk_writes = s.disk_writes +
           (if ClockMMU.clockWriteBack s p then 1 else 0)) ∧
    (∀ (s s' : RandState) (p : Nat) (w : Bool) (ch : Nat),
       RandMMU.access_memory s p w ch = some s' →
       s'.disk_writes = s.disk_writes +
         (if RandMMU.randWriteBack s p ch then 1 else 0)) ∧
    (readsOnly t → ∀ sl, lruRun t (LruMMU.init c) = some sl →
       LruMMU.get_total_disk_writes sl = 0) ∧
    (readsOnly t → ∀ sc, clockRun t (ClockMMU.init c) = some sc →
       ClockMMU.get_total_disk_writes sc = 0) ∧
    (readsOnlyR tr → ∀ sr, randRun tr (RandMMU.init c) = some sr →
       RandMMU.get_total_disk_writes sr = 0) := by
  refine ⟨?_, ?_, ?_, ?_, ?_, ?_⟩
  · intro s s' p w h
    exact (LruMMU.access_counters h).2.2.2.2
  · intro s p w hwf
    obtain ⟨s', heq, _, _, _, _, hdw, _, _⟩ := ClockMMU.clock_access_step hwf p w
    exact ⟨s', heq, hdw⟩
  · intro s s' p w ch h
    exact (RandMMU.rand_access_counters h).2.2.2
  · intro hro sl hsl
    have h := (lruRun_clean hsl hro (by simp [LruMMU.init])).2
    simpa [LruMMU.get_total_disk_writes, LruMMU.init] using h
  · intro hro sc hsc
    have h := (clockRun_clean (ClockMMU.clock_init_WF c hc) hsc hro
      (by simp [ClockMMU.init])).2
    simpa [ClockMMU.get_total_disk_writes, ClockMMU.init] using h
  · intro hro sr hsr
    have h := (randRun_clean hsr hro (by simp [RandMMU.init])).2
    simpa [RandMMU.get_total_disk_writes, RandMMU.init] using h

/-- C8 witness: the faulting access of page 7 with a clean resident page 5
leaves `disk_writes` unchanged. -/
theorem C8_disk_writes_witness :
    (⟨1, [(7, ⟨false, 2⟩)], 2, 2, 0, 2⟩ : LruState).disk_writes =
      (⟨1, [(5, ⟨false, 1⟩)], 1, 1, 0, 1⟩ : LruState).disk_writes +
        (if LruMMU.lruWriteBack ⟨1, [(5, ⟨false, 1⟩)], 1, 1, 0, 1⟩ 7 then 1 else 0) :=
  (C8_disk_writes 1 (by decide) [] []).1 ⟨1, [(5, ⟨false, 1⟩)], 1, 1, 0, 1⟩
    ⟨1, [(7, ⟨false, 2⟩)], 2, 2, 0, 2⟩ 7 false rfl

/-- C9: repeated read accesses to a page that is resident with a clear dirty
bit leave all three counters unchanged, for each policy. -/
theorem C9_hit_idempotent (n : Nat) :
    (∀ (s : LruState) (p : Nat) (f : LFrame),
       lookupFrame s.frames p = some f → f.dirty = false →
       ∃ s', lruRun (List.replicate n ⟨p, false⟩) s = some s' ∧
         LruMMU.get_total_disk_reads s' = LruMMU.get_total_disk_reads s ∧
         LruMMU.get_total_disk_writes s' = LruMMU.get_total_disk_writes s ∧
         LruMMU.get_total_page_faults s' = LruMMU.get_total_page_faults s) ∧
    (∀ (s : ClockState) (p : Nat) (f : CFrame), ClockMMU.ClockWF s →
       f ∈ s.frames → f.page = p → f.dirty = false →
       ∃ s', clockRun (List.replicate n ⟨p, false⟩) s = some s' ∧
         ClockMMU.get_total_disk_reads s' = ClockMMU.get_total_disk_reads s ∧
         ClockMMU.get_total_disk_writes s' = ClockMMU.get_total_disk_writes s ∧
         ClockMMU.get_total_page_faults s' = ClockMMU.get_total_page_faults s) ∧
    (∀ (s : RandState) (p : Nat), lookupFrame s.frames p = some false →
       ∃ s', randRun (List.replicate n (⟨p, false⟩, 0)) s = some s' ∧
         RandMMU.get_total_disk_reads s' = RandMMU.get_total_disk_reads s ∧
         RandMMU.get_total_disk_writes s' = RandMMU.get_total_disk_writes s ∧
         RandMMU.get_total_page_faults s' = RandMMU.get_total_page_faults s) := by
  refine ⟨?_, ?_, ?_⟩
  · intro s p f h hd
    obtain ⟨s', hrun, hpf, hdr, hdw⟩ := lru_read_hit_iter n h hd
    exact ⟨s', hrun, hdr, hdw, hpf⟩
  · intro s p f hwf hf hp hd
    obtain ⟨s', hrun, hpf, hdr, hdw⟩ := clock_read_hit_iter n hwf hf hp hd
    exact ⟨s', hrun, hdr, hdw, hpf⟩
  · intro s p h
    obtain ⟨s', hrun, hpf, hdr, hdw⟩ := rand_read_hit_iter n h
    exact ⟨s', hrun, hdr, hdw, hpf⟩

/-- C9 witness: two repeated reads of resident clean page 5 at capacity 1. -/
theorem C9_hit_idempotent_witness :
    ∃ s', lruRun (List.replicate 2 ⟨5, false⟩)
        ⟨1, [(5, ⟨false, 1⟩)], 1, 1, 0, 1⟩ = some s' ∧
      LruMMU.get_total_disk_reads s' =
        LruMMU.get_total_disk_reads ⟨1, [(5, ⟨false, 1⟩)], 1, 1, 0, 1⟩ ∧
      LruMMU.get_total_disk_writes s' =
        LruMMU.get_total_disk_writes ⟨1, [(5, ⟨false, 1⟩)], 1, 1, 0, 1⟩ ∧
      LruMMU.get_total_page_faults s' =
        LruMMU.get_total_page_faults ⟨1, [(5, ⟨false, 1⟩)], 1, 1, 0, 1⟩ :=
  (C9_hit_idempotent 2).1 ⟨1, [(5, ⟨false, 1⟩)], 1, 1, 0, 1⟩ 5 ⟨false, 1⟩ rfl rfl

/-- C10: immediately after any completed `read_memory` or `write_memory`
call, the accessed page is resident, for each policy. -/
theorem C10_resident_after (p : Nat) :
    (∀ (s s' : LruState), LruMMU.read_memory s p = some s' →
       (lookupFrame s'.frames p).isSome = true) ∧
    (∀ (s s' : LruState), LruMMU.write_memory s p = some s' →
       (lookupFrame s'.frames p).isSome = true) ∧
    (∀ (s s' : ClockState), ClockMMU.read_memory s p = some s' →
       (s'.frames.any (fun f => f.page == p)) = true) ∧
    (∀ (s s' : ClockState), ClockMMU.write_memory s p = some s' →
       (s'.frames.any (fun f => f.page == p)) = true) ∧
    (∀ (s s' : RandState) (ch : Nat), RandMMU.read_memory s p ch = some s' →
       (lookupFrame s'.frames p).isSome = true) ∧
    (∀ (s s' : RandState) (ch : Nat), RandMMU.write_memory s p ch = some s' →
       (lookupFrame s'.frames p).isSome = true) := by
  refine ⟨?_, ?_, ?_, ?_, ?_, ?_⟩
  · intro s s' h
    obtain ⟨f, hf⟩ := LruMMU.access_resident_after h
    simp [hf]
  · intro s s' h
    obtain ⟨f, hf⟩ := LruMMU.access_resident_after h
    simp [hf]
  · intro s s' h
    exact ClockMMU.clock_access_resident_after h
  · intro s s' h
    exact ClockMMU.clock_access_resident_after h
  · intro s s' ch h
    obtain ⟨d, hd⟩ := RandMMU.rand_access_resident_after h
    simp [hd]
  · intro s s' ch h
    obtain ⟨d, hd⟩ := RandMMU.rand_access_resident_after h
    simp [hd]

/-- C10 witness: a faulting read of page 4 at capacity 1 loads it. -/
theorem C10_resident_after_witness :
    (lookupFrame [(4, (⟨false, 1⟩ : LFrame))] 4).isSome = true :=
  (C10_resident_after 4).1 (LruMMU.init 1) ⟨1, [(4, ⟨false, 1⟩)], 1, 1, 0, 1⟩ rfl

end PageSim
